import Mathlib

/-!
Verification development for the six-scraper repository.

The Python source (six-scraper.py) is shallowly embedded below:
machine datetimes become a `DateTime` structure of naturals, Python
floats become exact rationals (Python floats are dyadic rationals and
the program performs no float arithmetic, only parsing and printing),
Python ints become `Int`, fallible code returns `Option`, and file /
store destinations are passed explicitly as values.
-/

namespace SixScraper

/-! ## Characters and digits -/

/-- Numeric value of a digit character, as Python int(c) would give for
a single digit; garbage for non-digits (callers guard with isDigit). -/
def dval (c : Char) : Nat := c.toNat - 48

/-- The digit character for a value below ten (mirrors the characters
produced by Python's number formatting). -/
def digitChar (n : Nat) : Char := Char.ofNat (48 + n)

theorem dval_digitChar : ∀ n < 10, dval (digitChar n) = n ∧ (digitChar n).isDigit = true := by
  decide

theorem digitChar_ne_sep : ∀ n < 10, digitChar n ≠ '.' ∧ digitChar n ≠ ';' ∧
    digitChar n ≠ '\n' ∧ digitChar n ≠ '\r' ∧ (digitChar n).isWhitespace = false := by
  decide

/-- Big-endian decimal digits of a natural number, with explicit fuel so
that the definition is structural and kernel-reducible.  Mirrors the
digit sequence produced by Python's str() on a nonnegative int. -/
def natDigitsF : Nat → Nat → List Char
  | 0, _ => []
  | fuel + 1, n => if n < 10 then [digitChar n] else natDigitsF fuel (n / 10) ++ [digitChar (n % 10)]

/-- Decimal digit string of a natural number (fuel instantiated large enough). -/
def natStr (n : Nat) : List Char := natDigitsF (n + 1) n

/-- Value of a big-endian digit string (no sign handling). -/
def digitsVal (cs : List Char) : Nat := cs.foldl (fun a c => a * 10 + dval c) 0

theorem digitsVal_append (xs ys : List Char) :
    digitsVal (xs ++ ys) = ys.foldl (fun a c => a * 10 + dval c) (digitsVal xs) := by
  simp [digitsVal, List.foldl_append]

theorem digitsVal_snoc (xs : List Char) (c : Char) :
    digitsVal (xs ++ [c]) = digitsVal xs * 10 + dval c := by
  simp [digitsVal_append, digitsVal]

theorem natDigitsF_spec : ∀ fuel n, 0 < fuel → n < 10 ^ fuel →
    digitsVal (natDigitsF fuel n) = n ∧ natDigitsF fuel n ≠ [] ∧
      ∀ c ∈ natDigitsF fuel n, c.isDigit = true ∧ c ≠ '.' ∧ c ≠ ';' ∧ c ≠ '\n' ∧ c ≠ '\r' ∧
        c.isWhitespace = false := by
  intro fuel
  induction fuel with
  | zero => intro n hpos h; omega
  | succ f ih =>
    intro n _ h
    by_cases hn : n < 10
    · refine ⟨?_, ?_, ?_⟩
      · simp [natDigitsF, hn, digitsVal, (dval_digitChar n hn).1]
      · simp [natDigitsF, hn]
      · simp only [natDigitsF, hn, if_true, List.mem_singleton]
        rintro c rfl
        exact ⟨(dval_digitChar n hn).2, (digitChar_ne_sep n hn).1, (digitChar_ne_sep n hn).2.1,
          (digitChar_ne_sep n hn).2.2.1, (digitChar_ne_sep n hn).2.2.2⟩
    · have hdiv : n / 10 < 10 ^ f := by
        have : n < 10 ^ f * 10 := by
          have := h; rw [pow_succ] at this; omega
        omega
      have hf : 0 < f := by
        rcases Nat.eq_zero_or_pos f with h0 | h0
        · subst h0; simp at hdiv; omega
        · exact h0
      obtain ⟨h1, h2, h3⟩ := ih (n / 10) hf hdiv
      have hmod : n % 10 < 10 := Nat.mod_lt _ (by omega)
      refine ⟨?_, ?_, ?_⟩
      · rw [natDigitsF, if_neg hn, digitsVal_snoc, h1, (dval_digitChar _ hmod).1]
        omega
      · simp [natDigitsF, hn]
      · simp only [natDigitsF, hn, if_false, List.mem_append, List.mem_singleton]
        rintro c (hc | rfl)
        · exact h3 c hc
        · exact ⟨(dval_digitChar _ hmod).2, (digitChar_ne_sep _ hmod).1,
            (digitChar_ne_sep _ hmod).2.1, (digitChar_ne_sep _ hmod).2.2.1,
            (digitChar_ne_sep _ hmod).2.2.2⟩

theorem lt_ten_pow (n : Nat) : n < 10 ^ (n + 1) := by
  induction n with
  | zero => simp
  | succ k ih =>
    have : 10 ^ (k + 1) ≤ 10 ^ (k + 2) := Nat.pow_le_pow_right (by omega) (by omega)
    omega

theorem natStr_spec (n : Nat) :
    digitsVal (natStr n) = n ∧ natStr n ≠ [] ∧
      ∀ c ∈ natStr n, c.isDigit = true ∧ c ≠ '.' ∧ c ≠ ';' ∧ c ≠ '\n' ∧ c ≠ '\r' ∧
        c.isWhitespace = false :=
  natDigitsF_spec (n + 1) n (by omega) (lt_ten_pow n)

/-- Exactly e big-endian digits of v (zero padded on the left); used for
fixed-width fields of the datetime format and for fraction digits. -/
def padDigits : Nat → Nat → List Char
  | 0, _ => []
  | e + 1, v => padDigits e (v / 10) ++ [digitChar (v % 10)]

theorem padDigits_length (e v : Nat) : (padDigits e v).length = e := by
  induction e generalizing v with
  | zero => simp [padDigits]
  | succ k ih => simp [padDigits, ih]

theorem padDigits_spec : ∀ e v, v < 10 ^ e →
    digitsVal (padDigits e v) = v ∧
      ∀ c ∈ padDigits e v, c.isDigit = true ∧ c ≠ '.' ∧ c ≠ ';' ∧ c ≠ '\n' ∧ c ≠ '\r' ∧
        c.isWhitespace = false := by
  intro e
  induction e with
  | zero => intro v h; simp [padDigits, digitsVal]; omega
  | succ k ih =>
    intro v h
    have hdiv : v / 10 < 10 ^ k := by
      have : v < 10 ^ k * 10 := by rw [pow_succ] at h; omega
      omega
    obtain ⟨h1, h2⟩ := ih (v / 10) hdiv
    have hmod : v % 10 < 10 := Nat.mod_lt _ (by omega)
    constructor
    · rw [padDigits, digitsVal_snoc, h1, (dval_digitChar _ hmod).1]; omega
    · simp only [padDigits, List.mem_append, List.mem_singleton]
      rintro c (hc | rfl)
      · exact h2 c hc
      · exact ⟨(dval_digitChar _ hmod).2, (digitChar_ne_sep _ hmod).1,
          (digitChar_ne_sep _ hmod).2.1, (digitChar_ne_sep _ hmod).2.2.1,
          (digitChar_ne_sep _ hmod).2.2.2⟩

/-- Two zero-padded digits, as Python strftime %d, %m, %H, %M, %S emit
for in-range values. -/
def pad2 (v : Nat) : List Char := padDigits 2 v

/-- Four zero-padded digits, as strftime %Y emits for four-digit years. -/
def pad4 (v : Nat) : List Char := padDigits 4 v

/-! ## Datetimes

Python datetime.datetime objects carry year/month/day/hour/minute/second
(microseconds are always zero in this program).  Comparison is
lexicographic on those fields. -/

structure DateTime where
  year : Nat
  month : Nat
  day : Nat
  hour : Nat
  minute : Nat
  second : Nat
deriving DecidableEq, Repr

/-- Strict lexicographic comparison, as Python compares datetimes. -/
def DateTime.lt (a b : DateTime) : Bool :=
  a.year < b.year || (a.year == b.year &&
    (a.month < b.month || (a.month == b.month &&
      (a.day < b.day || (a.day == b.day &&
        (a.hour < b.hour || (a.hour == b.hour &&
          (a.minute < b.minute || (a.minute == b.minute &&
            a.second < b.second)))))))))

/-- Non-strict comparison. -/
def DateTime.le (a b : DateTime) : Bool := a.lt b || a == b

/-- datetime.datetime(1970, 1, 1), the source's EPOCH sentinel. -/
def EPOCH : DateTime := ⟨1970, 1, 1, 0, 0, 0⟩

theorem DateTime.lt_iff (a b : DateTime) :
    a.lt b = true ↔ (a.year < b.year ∨ (a.year = b.year ∧
      (a.month < b.month ∨ (a.month = b.month ∧
        (a.day < b.day ∨ (a.day = b.day ∧
          (a.hour < b.hour ∨ (a.hour = b.hour ∧
            (a.minute < b.minute ∨ (a.minute = b.minute ∧
              a.second < b.second)))))))))) := by
  simp [DateTime.lt]

theorem DateTime.eq_iff (a b : DateTime) :
    a = b ↔ (a.year = b.year ∧ a.month = b.month ∧ a.day = b.day ∧
      a.hour = b.hour ∧ a.minute = b.minute ∧ a.second = b.second) := by
  constructor
  · rintro rfl; exact ⟨rfl, rfl, rfl, rfl, rfl, rfl⟩
  · rintro ⟨h1, h2, h3, h4, h5, h6⟩
    cases a; cases b; simp_all

theorem DateTime.le_iff (a b : DateTime) :
    a.le b = true ↔ (a.lt b = true ∨ a = b) := by
  simp [DateTime.le]

theorem DateTime.lt_trans {a b c : DateTime} (h1 : a.lt b = true) (h2 : b.lt c = true) :
    a.lt c = true := by
  rw [DateTime.lt_iff] at h1 h2 ⊢
  omega

theorem DateTime.lt_asymm {a b : DateTime} (h1 : a.lt b = true) : b.lt a = false := by
  rw [Bool.eq_false_iff]
  intro h2
  rw [DateTime.lt_iff] at h1 h2
  omega

theorem DateTime.not_lt {a b : DateTime} : a.lt b = false ↔ b.le a = true := by
  rw [DateTime.le_iff, DateTime.eq_iff, ← Bool.not_eq_true, DateTime.lt_iff, DateTime.lt_iff]
  omega

theorem DateTime.le_trans {a b c : DateTime} (h1 : a.le b = true) (h2 : b.le c = true) :
    a.le c = true := by
  rw [DateTime.le_iff] at h1 h2 ⊢
  rcases h1 with h1 | rfl
  · rcases h2 with h2 | rfl
    · exact Or.inl (DateTime.lt_trans h1 h2)
    · exact Or.inl h1
  · exact h2

theorem DateTime.lt_of_lt_of_le {a b c : DateTime} (h1 : a.lt b = true) (h2 : b.le c = true) :
    a.lt c = true := by
  rw [DateTime.le_iff] at h2
  rcases h2 with h2 | rfl
  · exact DateTime.lt_trans h1 h2
  · exact h1

theorem DateTime.le_of_lt {a b : DateTime} (h : a.lt b = true) : a.le b = true := by
  rw [DateTime.le_iff]; exact Or.inl h

theorem DateTime.le_total (a b : DateTime) : a.le b = true ∨ b.le a = true := by
  rw [DateTime.le_iff, DateTime.le_iff, DateTime.eq_iff, DateTime.lt_iff, DateTime.lt_iff]
  omega

theorem DateTime.le_refl (a : DateTime) : a.le a = true := by
  rw [DateTime.le_iff]; exact Or.inr rfl

/-- The larger of two datetimes. -/
def DateTime.max (a b : DateTime) : DateTime := if a.lt b then b else a

theorem DateTime.le_max_left (a b : DateTime) : a.le (a.max b) = true := by
  unfold DateTime.max
  by_cases h : a.lt b = true
  · simp [h, DateTime.le_of_lt h]
  · simp [Bool.eq_false_iff.mpr (fun hc => h hc), DateTime.le_refl]

theorem DateTime.le_max_right (a b : DateTime) : b.le (a.max b) = true := by
  unfold DateTime.max
  by_cases h : a.lt b = true
  · simp [h, DateTime.le_refl]
  · have := DateTime.not_lt.mp (Bool.eq_false_iff.mpr (fun hc => h hc))
    simp [Bool.eq_false_iff.mpr (fun hc => h hc), this]

theorem DateTime.max_le {a b c : DateTime} (h1 : a.le c = true) (h2 : b.le c = true) :
    (a.max b).le c = true := by
  unfold DateTime.max
  by_cases h : a.lt b = true <;> simp [h, h1, h2]

/-! ## strptime

Python's datetime.datetime.strptime compiles the format into a regex:
two-digit fields try the zero-padded two-digit alternatives first and
fall back to a bare single digit, %Y is exactly four digits, literal
whitespace matches one or more whitespace characters, letters match
case-insensitively, and the whole input must be consumed.  The matched
fields are then validated by the datetime constructor. -/

inductive Tok where
  | lit (c : Char)
  | day
  | mon
  | year
  | hour
  | minute
  | second
deriving DecidableEq

/-- Case-insensitive character match (strptime compiles with IGNORECASE). -/
def charEqCI (a b : Char) : Bool := a.toLower == b.toLower

/-- Run a compiled format against the input characters, threading the
partially filled datetime (strptime defaults: 1900-01-01 00:00:00).
Backtracking of the two-digit/one-digit regex alternatives is modeled by
orElse of the two full continuations. -/
def runFmt : List Tok → DateTime → List Char → Option DateTime
  | [], acc, cs => if cs.isEmpty then some acc else none
  | .lit c :: ts, acc, cs =>
    if c = ' ' then
      match cs with
      | c1 :: rest =>
        if c1.isWhitespace then runFmt ts acc (rest.dropWhile Char.isWhitespace) else none
      | [] => none
    else
      match cs with
      | c1 :: rest => if charEqCI c c1 then runFmt ts acc rest else none
      | [] => none
  | .year :: ts, acc, cs =>
    match cs with
    | a :: b :: c :: d :: rest =>
      if a.isDigit && b.isDigit && c.isDigit && d.isDigit then
        runFmt ts { acc with year := dval a * 1000 + dval b * 100 + dval c * 10 + dval d } rest
      else none
    | _ => none
  | .day :: ts, acc, cs =>
    (match cs with
     | a :: b :: rest =>
       if a.isDigit && b.isDigit && 1 ≤ dval a * 10 + dval b && dval a * 10 + dval b ≤ 31 then
         runFmt ts { acc with day := dval a * 10 + dval b } rest
       else none
     | _ => none) <|>
    (match cs with
     | a :: rest =>
       if a.isDigit && 1 ≤ dval a then runFmt ts { acc with day := dval a } rest else none
     | _ => none)
  | .mon :: ts, acc, cs =>
    (match cs with
     | a :: b :: rest =>
       if a.isDigit && b.isDigit && 1 ≤ dval a * 10 + dval b && dval a * 10 + dval b ≤ 12 then
         runFmt ts { acc with month := dval a * 10 + dval b } rest
       else none
     | _ => none) <|>
    (match cs with
     | a :: rest =>
       if a.isDigit && 1 ≤ dval a then runFmt ts { acc with month := dval a } rest else none
     | _ => none)
  | .hour :: ts, acc, cs =>
    (match cs with
     | a :: b :: rest =>
       if a.isDigit && b.isDigit && dval a * 10 + dval b ≤ 23 then
         runFmt ts { acc with hour := dval a * 10 + dval b } rest
       else none
     | _ => none) <|>
    (match cs with
     | a :: rest => if a.isDigit then runFmt ts { acc with hour := dval a } rest else none
     | _ => none)
  | .minute :: ts, acc, cs =>
    (match cs with
     | a :: b :: rest =>
       if a.isDigit && b.isDigit && dval a * 10 + dval b ≤ 59 then
         runFmt ts { acc with minute := dval a * 10 + dval b } rest
       else none
     | _ => none) <|>
    (match cs with
     | a :: rest => if a.isDigit then runFmt ts { acc with minute := dval a } rest else none
     | _ => none)
  | .second :: ts, acc, cs =>
    (match cs with
     | a :: b :: rest =>
       if a.isDigit && b.isDigit && dval a * 10 + dval b ≤ 61 then
         runFmt ts { acc with second := dval a * 10 + dval b } rest
       else none
     | _ => none) <|>
    (match cs with
     | a :: rest => if a.isDigit then runFmt ts { acc with second := dval a } rest else none
     | _ => none)

/-- Gregorian leap year, as datetime uses. -/
def isLeap (y : Nat) : Bool := (y % 4 == 0 && y % 100 != 0) || y % 400 == 0

/-- Length of a month, as the datetime constructor validates. -/
def daysInMonth (y m : Nat) : Nat :=
  if m = 2 then (if isLeap y then 29 else 28)
  else if m = 4 ∨ m = 6 ∨ m = 9 ∨ m = 11 then 30 else 31

/-- Field validation performed by the datetime.datetime constructor. -/
def validDT (dt : DateTime) : Bool :=
  1 ≤ dt.year && dt.year ≤ 9999 && 1 ≤ dt.month && dt.month ≤ 12 &&
    1 ≤ dt.day && dt.day ≤ daysInMonth dt.year dt.month &&
    dt.hour ≤ 23 && dt.minute ≤ 59 && dt.second ≤ 59

/-- datetime.datetime.strptime over a compiled format. -/
def strptime (fmt : List Tok) (s : String) : Option DateTime :=
  match runFmt fmt ⟨1900, 1, 1, 0, 0, 0⟩ s.toList with
  | some dt => if validDT dt then some dt else none
  | none => none

/-- The compiled form of the format string for day.month.year. -/
def fmtDate : List Tok := [.day, .lit '.', .mon, .lit '.', .year]

/-- day.month.yearThour:minute. -/
def fmtDateTHM : List Tok := fmtDate ++ [.lit 'T', .hour, .lit ':', .minute]

/-- day.month.yearThour:minute:second. -/
def fmtDateTHMS : List Tok := fmtDateTHM ++ [.lit ':', .second]

/-- day.month.year hour:minute. -/
def fmtDateHM : List Tok := fmtDate ++ [.lit ' ', .hour, .lit ':', .minute]

/-- day.month.year hour:minute:second, the single format of parse_datetime. -/
def fmtFull : List Tok := fmtDateHM ++ [.lit ':', .second]

/-- parse_datetime from the source: strptime with the full format,
returning none where Python raises ValueError. -/
def parse_datetime (s : String) : Option DateTime := strptime fmtFull s

/-- str_datetime from the source: strftime of the full format with
zero-padded fields. -/
def str_datetime (dt : DateTime) : String :=
  ⟨pad2 dt.day ++ '.' :: pad2 dt.month ++ '.' :: pad4 dt.year ++
    ' ' :: pad2 dt.hour ++ ':' :: pad2 dt.minute ++ ':' :: pad2 dt.second⟩

/-- funcy.some over a list of attempts: the first non-none value. -/
def firstSome {α : Type} : List (Option α) → Option α
  | [] => none
  | some x :: _ => some x
  | none :: rest => firstSome rest

/-- The ordered format list of the source's _parse_datetime. -/
def FORMATS : List (List Tok) := [fmtDate, fmtDateTHM, fmtDateTHMS, fmtDateHM, fmtFull]

/-- The source's _parse_datetime for range boundaries: try each format
in order, first success wins; none where the source exits with the
unrecognized-datetime message. -/
def parse_datetime_multi (s : String) : Option DateTime :=
  firstSome (FORMATS.map (fun f => strptime f s))

/-! ## The strftime/strptime round trip -/

theorem pad2_eq (v : Nat) (h : v < 100) :
    pad2 v = [digitChar (v / 10), digitChar (v % 10)] := by
  have : v / 10 % 10 = v / 10 := Nat.mod_eq_of_lt (by omega)
  simp [pad2, padDigits, this]

theorem pad4_eq (v : Nat) (h : v < 10000) :
    pad4 v = [digitChar (v / 1000), digitChar (v / 100 % 10), digitChar (v / 10 % 10),
      digitChar (v % 10)] := by
  have h1 : v / 1000 % 10 = v / 1000 := Nat.mod_eq_of_lt (by omega)
  have h2 : v / 100 / 10 = v / 1000 := by omega
  have h3 : v / 10 / 10 = v / 100 := by omega
  simp [pad4, padDigits, h1, h2, h3]

theorem runFmt_step_lit {ts : List Tok} {acc : DateTime} {cs : List Char} {r : DateTime}
    {c : Char} (hc : c ≠ ' ') (h : runFmt ts acc cs = some r) :
    runFmt (.lit c :: ts) acc (c :: cs) = some r := by
  simp [runFmt, hc, charEqCI, h]

theorem runFmt_step_space_pad2 {ts : List Tok} {acc : DateTime} {rest : List Char}
    {r : DateTime} {v : Nat} (hv : v < 100)
    (h : runFmt ts acc (pad2 v ++ rest) = some r) :
    runFmt (.lit ' ' :: ts) acc (' ' :: (pad2 v ++ rest)) = some r := by
  rw [pad2_eq v hv] at h ⊢
  have hsp := (digitChar_ne_sep (v / 10) (by omega)).2.2.2.2
  simp only [List.cons_append, List.nil_append] at h
  simp [runFmt, List.dropWhile, hsp, h]

theorem runFmt_step_day {ts : List Tok} {acc : DateTime} {rest : List Char} {r : DateTime}
    {v : Nat} (h1 : 1 ≤ v) (h2 : v ≤ 31)
    (h : runFmt ts { acc with day := v } rest = some r) :
    runFmt (.day :: ts) acc (pad2 v ++ rest) = some r := by
  rw [pad2_eq v (by omega)]
  have ha := dval_digitChar (v / 10) (by omega)
  have hb := dval_digitChar (v % 10) (by omega)
  have hv2 : v / 10 * 10 + v % 10 = v := by omega
  simp only [runFmt, List.cons_append, List.nil_append, ha.2, hb.2, ha.1, hb.1, hv2,
    Bool.true_and]
  rw [if_pos (by simp only [Bool.and_eq_true, decide_eq_true_eq]; omega), h]
  rfl

theorem runFmt_step_mon {ts : List Tok} {acc : DateTime} {rest : List Char} {r : DateTime}
    {v : Nat} (h1 : 1 ≤ v) (h2 : v ≤ 12)
    (h : runFmt ts { acc with month := v } rest = some r) :
    runFmt (.mon :: ts) acc (pad2 v ++ rest) = some r := by
  rw [pad2_eq v (by omega)]
  have ha := dval_digitChar (v / 10) (by omega)
  have hb := dval_digitChar (v % 10) (by omega)
  have hv2 : v / 10 * 10 + v % 10 = v := by omega
  simp only [runFmt, List.cons_append, List.nil_append, ha.2, hb.2, ha.1, hb.1, hv2,
    Bool.true_and]
  rw [if_pos (by simp only [Bool.and_eq_true, decide_eq_true_eq]; omega), h]
  rfl

theorem runFmt_step_hour {ts : List Tok} {acc : DateTime} {rest : List Char} {r : DateTime}
    {v : Nat} (h2 : v ≤ 23)
    (h : runFmt ts { acc with hour := v } rest = some r) :
    runFmt (.hour :: ts) acc (pad2 v ++ rest) = some r := by
  rw [pad2_eq v (by omega)]
  have ha := dval_digitChar (v / 10) (by omega)
  have hb := dval_digitChar (v % 10) (by omega)
  have hv2 : v / 10 * 10 + v % 10 = v := by omega
  simp only [runFmt, List.cons_append, List.nil_append, ha.2, hb.2, ha.1, hb.1, hv2,
    Bool.true_and]
  rw [if_pos (by simp only [decide_eq_true_eq]; omega), h]
  rfl

theorem runFmt_step_minute {ts : List Tok} {acc : DateTime} {rest : List Char} {r : DateTime}
    {v : Nat} (h2 : v ≤ 59)
    (h : runFmt ts { acc with minute := v } rest = some r) :
    runFmt (.minute :: ts) acc (pad2 v ++ rest) = some r := by
  rw [pad2_eq v (by omega)]
  have ha := dval_digitChar (v / 10) (by omega)
  have hb := dval_digitChar (v % 10) (by omega)
  have hv2 : v / 10 * 10 + v % 10 = v := by omega
  simp only [runFmt, List.cons_append, List.nil_append, ha.2, hb.2, ha.1, hb.1, hv2,
    Bool.true_and]
  rw [if_pos (by simp only [decide_eq_true_eq]; omega), h]
  rfl

theorem runFmt_step_second {ts : List Tok} {acc : DateTime} {rest : List Char} {r : DateTime}
    {v : Nat} (h2 : v ≤ 61)
    (h : runFmt ts { acc with second := v } rest = some r) :
    runFmt (.second :: ts) acc (pad2 v ++ rest) = some r := by
  rw [pad2_eq v (by omega)]
  have ha := dval_digitChar (v / 10) (by omega)
  have hb := dval_digitChar (v % 10) (by omega)
  have hv2 : v / 10 * 10 + v % 10 = v := by omega
  simp only [runFmt, List.cons_append, List.nil_append, ha.2, hb.2, ha.1, hb.1, hv2,
    Bool.true_and]
  rw [if_pos (by simp only [decide_eq_true_eq]; omega), h]
  rfl

theorem runFmt_step_year {ts : List Tok} {acc : DateTime} {rest : List Char} {r : DateTime}
    {v : Nat} (h2 : v < 10000)
    (h : runFmt ts { acc with year := v } rest = some r) :
    runFmt (.year :: ts) acc (pad4 v ++ rest) = some r := by
  rw [pad4_eq v h2]
  have ha := dval_digitChar (v / 1000) (by omega)
  have hb := dval_digitChar (v / 100 % 10) (by omega)
  have hc := dval_digitChar (v / 10 % 10) (by omega)
  have hd := dval_digitChar (v % 10) (by omega)
  have hv4 : v / 1000 * 1000 + v / 100 % 10 * 100 + v / 10 % 10 * 10 + v % 10 = v := by omega
  simp only [runFmt, List.cons_append, List.nil_append, ha.2, hb.2, hc.2, hd.2, ha.1, hb.1,
    hc.1, hd.1, hv4, Bool.true_and, Bool.and_self, if_true]
  exact h

theorem daysInMonth_le (y m : Nat) : daysInMonth y m ≤ 31 := by
  unfold daysInMonth
  split_ifs <;> omega

/-- A valid datetime survives the str_datetime / parse_datetime round
trip exactly (one-second resolution is inherent to the model). -/
theorem parse_str_datetime (dt : DateTime) (h : validDT dt = true) :
    parse_datetime (str_datetime dt) = some dt := by
  obtain ⟨y, mo, d, hh, mi, s⟩ := dt
  simp only [validDT, Bool.and_eq_true, decide_eq_true_eq] at h
  obtain ⟨⟨⟨⟨⟨⟨⟨⟨hy1, hy2⟩, hm1⟩, hm2⟩, hd1⟩, hd2⟩, hh1⟩, hmi1⟩, hs1⟩ := h
  have hd31 : d ≤ 31 := le_trans hd2 (daysInMonth_le y mo)
  have hrun : runFmt fmtFull ⟨1900, 1, 1, 0, 0, 0⟩
      (str_datetime ⟨y, mo, d, hh, mi, s⟩).toList = some ⟨y, mo, d, hh, mi, s⟩ := by
    show runFmt [.day, .lit '.', .mon, .lit '.', .year, .lit ' ', .hour, .lit ':', .minute,
      .lit ':', .second] ⟨1900, 1, 1, 0, 0, 0⟩
      (pad2 d ++ '.' :: pad2 mo ++ '.' :: pad4 y ++
        ' ' :: pad2 hh ++ ':' :: pad2 mi ++ ':' :: pad2 s) = some ⟨y, mo, d, hh, mi, s⟩
    refine runFmt_step_day hd1 hd31 ?_
    refine runFmt_step_lit (by decide) ?_
    refine runFmt_step_mon hm1 hm2 ?_
    refine runFmt_step_lit (by decide) ?_
    refine runFmt_step_year (by omega) ?_
    refine runFmt_step_space_pad2 (by omega) ?_
    refine runFmt_step_hour hh1 ?_
    refine runFmt_step_lit (by decide) ?_
    refine runFmt_step_minute hmi1 ?_
    refine runFmt_step_lit (by decide) ?_
    refine runFmt_step_second (by omega) ?_
    rfl
  unfold parse_datetime strptime
  rw [hrun]
  simp [validDT, hy1, hy2, hm1, hm2, hd1, hd2, hh1, hmi1, hs1]

/-! ## Python numbers

Python's int() and float() on strings, and str() on ints and floats.
The model restricts float() to finite decimal notation (no inf/nan and
no underscore separators, which never occur in this program's data);
printing of floats is exact for rationals with a power-of-ten
denominator, which covers every value float() itself can produce. -/

/-- Strip leading and trailing whitespace, as int() and float() do. -/
def trimWS (cs : List Char) : List Char :=
  ((cs.dropWhile Char.isWhitespace).reverse.dropWhile Char.isWhitespace).reverse

/-- Optional leading sign: returns the negation flag and remainder,
as the int()/float() grammars treat a leading minus or plus. -/
def signSplit (cs : List Char) : Bool × List Char :=
  match cs with
  | '-' :: rest => (true, rest)
  | '+' :: rest => (false, rest)
  | _ => (false, cs)

/-- Sign-and-digits reading shared by int() and exponent parsing. -/
def intOfSigned (p : Bool × List Char) : Option Int :=
  if p.2.isEmpty then none
  else if p.2.all Char.isDigit then
    some (if p.1 then -(digitsVal p.2 : Int) else (digitsVal p.2 : Int))
  else none

/-- Python int() on a string: optional surrounding whitespace, optional
sign, then decimal digits. -/
def pyInt? (s : String) : Option Int :=
  intOfSigned (signSplit (trimWS s.toList))

/-- Python str() on an int. -/
def intRepr (n : Int) : List Char :=
  if n < 0 then '-' :: natStr n.natAbs else natStr n.toNat

/-- Optional exponent suffix of a float literal; the whole remainder
must be consumed. -/
def expAfter : List Char → Option Int
  | [] => some 0
  | c :: rest =>
    if c = 'e' ∨ c = 'E' then intOfSigned (signSplit rest) else none

/-- Scale a mantissa by a signed power of ten. -/
def applyExp (q : ℚ) (e : Int) : ℚ :=
  if 0 ≤ e then q * (10 : ℚ) ^ e.toNat else q / (10 : ℚ) ^ (-e).toNat

/-- Continuation of float() after the integer digit run: an optional
point with fraction digits, then the exponent suffix. -/
def pyFloatTail (ip : List Char) (r1 : List Char) : Option ℚ :=
  match r1 with
  | '.' :: r2 =>
    if ip.isEmpty && (r2.takeWhile Char.isDigit).isEmpty then none
    else (expAfter (r2.dropWhile Char.isDigit)).map (fun e =>
      applyExp ((digitsVal ip : ℚ) +
        (digitsVal (r2.takeWhile Char.isDigit) : ℚ) /
          (10 : ℚ) ^ (r2.takeWhile Char.isDigit).length) e)
  | _ =>
    if ip.isEmpty then none
    else (expAfter r1).map (fun e => applyExp ((digitsVal ip : ℚ)) e)

/-- Unsigned part of float(): digits, optional point and fraction
digits, optional exponent. -/
def pyFloatMag (cs : List Char) : Option ℚ :=
  pyFloatTail (cs.takeWhile Char.isDigit) (cs.dropWhile Char.isDigit)

/-- Sign application for float(). -/
def floatOfSigned (p : Bool × List Char) : Option ℚ :=
  (pyFloatMag p.2).map (fun q => if p.1 then -q else q)

/-- Python float() on a string. -/
def pyFloat? (s : String) : Option ℚ :=
  floatOfSigned (signSplit (trimWS s.toList))

/-- Smallest exponent e at or below 64 with den dividing 10 to the e;
every denominator of a float value has one since floats are dyadic
rationals with exponents far inside that bound. -/
def decExp? (d : Nat) : Option Nat := (List.range 65).find? (fun e => 10 ^ e % d == 0)

/-- Whether a rational is representable as a finite decimal within the
modeled precision (true of every Python float value). -/
def isDecQ (q : ℚ) : Bool := (decExp? q.den).isSome

/-- Unsigned decimal rendering of str() on a nonnegative float value:
integer digits, a point, and the fraction digits (a lone zero for an
integral value, as Python prints 21.0).  The final branch is
unreachable for float values and renders an unparseable marker. -/
def floatReprMag (q : ℚ) : List Char :=
  match decExp? q.den with
  | some 0 => natStr q.num.natAbs ++ ['.', '0']
  | some (e + 1) =>
    natStr (q.num.natAbs * (10 ^ (e + 1) / q.den) / 10 ^ (e + 1)) ++
      '.' :: padDigits (e + 1) (q.num.natAbs * (10 ^ (e + 1) / q.den) % 10 ^ (e + 1))
  | none => ['?']

/-- Python str() on a float value. -/
def floatRepr (q : ℚ) : List Char :=
  if q < 0 then '-' :: floatReprMag q else floatReprMag q

theorem dropWhile_eq_self_of_none {p : Char → Bool} {cs : List Char}
    (h : ∀ c ∈ cs, p c = false) : cs.dropWhile p = cs := by
  cases cs with
  | nil => rfl
  | cons c r => simp [List.dropWhile, h c (by simp)]

theorem trimWS_eq_self {cs : List Char} (h : ∀ c ∈ cs, c.isWhitespace = false) :
    trimWS cs = cs := by
  unfold trimWS
  rw [dropWhile_eq_self_of_none h, dropWhile_eq_self_of_none (by simpa using h),
    List.reverse_reverse]

theorem takeWhile_append_stop (p : Char → Bool) (xs ys : List Char) (y : Char)
    (hxs : ∀ c ∈ xs, p c = true) (hy : p y = false) :
    (xs ++ y :: ys).takeWhile p = xs ∧ (xs ++ y :: ys).dropWhile p = y :: ys := by
  induction xs with
  | nil => simp [List.takeWhile, List.dropWhile, hy]
  | cons x xs ih =>
    have hx : p x = true := hxs x (by simp)
    have := ih (fun c hc => hxs c (by simp [hc]))
    simp [List.takeWhile, List.dropWhile, hx, this.1, this.2]

theorem takeWhile_all_true (p : Char → Bool) (xs : List Char)
    (hxs : ∀ c ∈ xs, p c = true) :
    xs.takeWhile p = xs ∧ xs.dropWhile p = [] := by
  induction xs with
  | nil => simp
  | cons x xs ih =>
    have hx : p x = true := hxs x (by simp)
    have := ih (fun c hc => hxs c (by simp [hc]))
    simp [List.takeWhile, List.dropWhile, hx, this.1, this.2]

theorem isDigit_ne_sign {c : Char} (h : c.isDigit = true) :
    c ≠ '-' ∧ c ≠ '+' ∧ c.isWhitespace = false := by
  refine ⟨?_, ?_, ?_⟩
  · rintro rfl; exact absurd h (by decide)
  · rintro rfl; exact absurd h (by decide)
  · cases hw : c.isWhitespace
    · rfl
    · exfalso
      unfold Char.isWhitespace at hw
      simp only [Bool.or_eq_true, decide_eq_true_eq] at hw
      rcases hw with ((rfl | rfl) | rfl) | rfl <;> exact absurd h (by decide)

theorem signSplit_other {a : Char} {l : List Char} (h1 : a ≠ '-') (h2 : a ≠ '+') :
    signSplit (a :: l) = (false, a :: l) := by
  unfold signSplit
  split
  · rename_i heq
    rw [List.cons.injEq] at heq
    exact absurd heq.1 h1
  · rename_i heq
    rw [List.cons.injEq] at heq
    exact absurd heq.1 h2
  · rfl

theorem intOfSigned_digits {neg : Bool} {ds : List Char} (hne : ds ≠ [])
    (hdig : ∀ c ∈ ds, c.isDigit = true) :
    intOfSigned (neg, ds) = some (if neg then -(digitsVal ds : Int) else (digitsVal ds : Int)) := by
  have hner : ds.isEmpty = false := by
    cases ds with
    | nil => exact absurd rfl hne
    | cons a l => rfl
  have hall : ds.all Char.isDigit = true := by
    rw [List.all_eq_true]; exact hdig
  show (if ds.isEmpty then none
    else if ds.all Char.isDigit then
      some (if neg then -(digitsVal ds : Int) else (digitsVal ds : Int))
    else none) = some (if neg then -(digitsVal ds : Int) else (digitsVal ds : Int))
  simp only [hner, hall, Bool.false_eq_true, if_false, if_true]

/-- Round trip for integers: int(str(n)) is n. -/
theorem pyInt_intRepr (n : Int) : pyInt? ⟨intRepr n⟩ = some n := by
  by_cases hn : n < 0
  · obtain ⟨hval, hne, hdig⟩ := natStr_spec n.natAbs
    have hnws : ∀ c ∈ '-' :: natStr n.natAbs, c.isWhitespace = false := by
      intro c hc
      rcases List.mem_cons.mp hc with rfl | hc
      · decide
      · exact (hdig c hc).2.2.2.2.2
    unfold pyInt?
    have hlist : (String.mk (intRepr n)).toList = '-' :: natStr n.natAbs := by
      show intRepr n = '-' :: natStr n.natAbs
      rw [intRepr, if_pos hn]
    rw [hlist, trimWS_eq_self hnws]
    show intOfSigned (true, natStr n.natAbs) = some n
    rw [intOfSigned_digits hne (fun c hc => (hdig c hc).1)]
    simp only [if_true, hval]
    have : ((n.natAbs : Int)) = -n := by omega
    rw [this, neg_neg]
  · obtain ⟨hval, hne, hdig⟩ := natStr_spec n.toNat
    have hnws : ∀ c ∈ natStr n.toNat, c.isWhitespace = false :=
      fun c hc => (hdig c hc).2.2.2.2.2
    unfold pyInt?
    have hlist : (String.mk (intRepr n)).toList = natStr n.toNat := by
      show intRepr n = natStr n.toNat
      rw [intRepr, if_neg hn]
    rw [hlist, trimWS_eq_self hnws]
    cases hcs : natStr n.toNat with
    | nil => exact absurd hcs hne
    | cons a l =>
      have ha : a.isDigit = true := (hdig a (by rw [hcs]; simp)).1
      have hsgn := isDigit_ne_sign ha
      rw [hcs] at hval hdig
      rw [signSplit_other hsgn.1 hsgn.2.1,
        intOfSigned_digits (by simp) (fun c hc => (hdig c hc).1)]
      simp only [Bool.false_eq_true, if_false, hval]
      congr 1
      omega

theorem expAfter_nil : expAfter [] = some 0 := rfl

theorem applyExp_zero (q : ℚ) : applyExp q 0 = q := by
  simp [applyExp]

theorem pyFloatTail_dot (ip r2 : List Char) :
    pyFloatTail ip ('.' :: r2) =
      (if ip.isEmpty && (r2.takeWhile Char.isDigit).isEmpty then none
       else (expAfter (r2.dropWhile Char.isDigit)).map (fun e =>
         applyExp ((digitsVal ip : ℚ) +
           (digitsVal (r2.takeWhile Char.isDigit) : ℚ) /
             (10 : ℚ) ^ (r2.takeWhile Char.isDigit).length) e)) := rfl

theorem decExp?_dvd {d e : Nat} (h : decExp? d = some e) : d ∣ 10 ^ e := by
  have := List.find?_some h
  simp only [beq_iff_eq] at this
  exact Nat.dvd_of_mod_eq_zero this

theorem natDivModQ (m P : Nat) (hP : 0 < P) :
    ((m / P : Nat) : ℚ) + ((m % P : Nat) : ℚ) / ((P : Nat) : ℚ) = ((m : Nat) : ℚ) / ((P : Nat) : ℚ) := by
  have hdm := Nat.div_add_mod m P
  have hPQ : ((P : Nat) : ℚ) ≠ 0 := by
    have : (P : Nat) ≠ 0 := by omega
    exact_mod_cast this
  have hcast : ((P * (m / P) + m % P : Nat) : ℚ) = ((m : Nat) : ℚ) := by
    exact_mod_cast congrArg (fun x => ((x : Nat) : ℚ)) hdm
  push_cast at hcast
  field_simp
  linarith [hcast]

theorem cancel_k (a den k : Nat) (hk : 0 < k) :
    ((a * k : Nat) : ℚ) / ((den * k : Nat) : ℚ) = ((a : Nat) : ℚ) / ((den : Nat) : ℚ) := by
  push_cast
  rw [mul_div_mul_right]
  have : (k : Nat) ≠ 0 := by omega
  exact_mod_cast this

/-- The unsigned rendering parses back to the absolute value. -/
theorem pyFloatMag_floatReprMag (q : ℚ) (h : isDecQ q = true) :
    pyFloatMag (floatReprMag q) = some ((q.num.natAbs : ℚ) / (q.den : ℚ)) := by
  unfold isDecQ at h
  cases he : decExp? q.den with
  | none => rw [he] at h; simp at h
  | some e =>
    have hdvd := decExp?_dvd he
    cases e with
    | zero =>
      have hden : q.den = 1 := Nat.dvd_one.mp (by simpa using hdvd)
      obtain ⟨hval, hne, hdig⟩ := natStr_spec q.num.natAbs
      have hrepr : floatReprMag q = natStr q.num.natAbs ++ '.' :: ['0'] := by
        unfold floatReprMag
        rw [he]
      have hsplit := takeWhile_append_stop Char.isDigit (natStr q.num.natAbs) ['0'] '.'
        (fun c hc => (hdig c hc).1) (by decide)
      rw [hrepr]
      unfold pyFloatMag
      rw [hsplit.1, hsplit.2, pyFloatTail_dot]
      have hip : (natStr q.num.natAbs).isEmpty = false := by
        cases hx : natStr q.num.natAbs with
        | nil => exact absurd hx hne
        | cons a l => rfl
      have h0 : (['0'] : List Char).takeWhile Char.isDigit = ['0'] := by decide
      have h0d : (['0'] : List Char).dropWhile Char.isDigit = [] := by decide
      rw [h0, h0d, expAfter_nil, hip]
      simp only [Bool.false_and, Bool.false_eq_true, if_false, Option.map_some']
      rw [applyExp_zero, hval]
      have h00 : digitsVal ['0'] = 0 := by decide
      rw [h00, hden]
      push_cast
      norm_num
    | succ e =>
      have hP : 0 < 10 ^ (e + 1) := Nat.pos_pow_of_pos _ (by omega)
      have hk : q.den * (10 ^ (e + 1) / q.den) = 10 ^ (e + 1) := Nat.mul_div_cancel' hdvd
      have hkpos : 0 < 10 ^ (e + 1) / q.den := by
        rcases Nat.eq_zero_or_pos (10 ^ (e + 1) / q.den) with h0 | h0
        · rw [h0, Nat.mul_zero] at hk; omega
        · exact h0
      have hrepr : floatReprMag q =
          natStr (q.num.natAbs * (10 ^ (e + 1) / q.den) / 10 ^ (e + 1)) ++
            '.' :: padDigits (e + 1)
              (q.num.natAbs * (10 ^ (e + 1) / q.den) % 10 ^ (e + 1)) := by
        unfold floatReprMag
        rw [he]
      obtain ⟨hvalI, hneI, hdigI⟩ :=
        natStr_spec (q.num.natAbs * (10 ^ (e + 1) / q.den) / 10 ^ (e + 1))
      have hmod : q.num.natAbs * (10 ^ (e + 1) / q.den) % 10 ^ (e + 1) < 10 ^ (e + 1) :=
        Nat.mod_lt _ hP
      obtain ⟨hvalF, hdigF⟩ := padDigits_spec (e + 1) _ hmod
      have hsplit := takeWhile_append_stop Char.isDigit _
        (padDigits (e + 1) (q.num.natAbs * (10 ^ (e + 1) / q.den) % 10 ^ (e + 1))) '.'
        (fun c hc => (hdigI c hc).1) (by decide)
      have hfp := takeWhile_all_true Char.isDigit
        (padDigits (e + 1) (q.num.natAbs * (10 ^ (e + 1) / q.den) % 10 ^ (e + 1)))
        (fun c hc => (hdigF c hc).1)
      rw [hrepr]
      unfold pyFloatMag
      rw [hsplit.1, hsplit.2, pyFloatTail_dot, hfp.1, hfp.2, expAfter_nil]
      have hip : (natStr (q.num.natAbs * (10 ^ (e + 1) / q.den) / 10 ^ (e + 1))).isEmpty =
          false := by
        cases hx : natStr (q.num.natAbs * (10 ^ (e + 1) / q.den) / 10 ^ (e + 1)) with
        | nil => exact absurd hx hneI
        | cons a l => rfl
      rw [hip]
      simp only [Bool.false_and, Bool.false_eq_true, if_false, Option.map_some']
      rw [applyExp_zero, hvalI, hvalF, padDigits_length]
      congr 1
      have hcast : ((10 : ℚ)) ^ (e + 1) = ((10 ^ (e + 1) : Nat) : ℚ) := by push_cast; ring
      rw [hcast, natDivModQ _ _ hP]
      rw [show ((10 ^ (e + 1) : Nat) : ℚ) = ((q.den * (10 ^ (e + 1) / q.den) : Nat) : ℚ) by
        rw [hk]]
      exact cancel_k q.num.natAbs q.den _ hkpos

theorem floatOfSigned_neg (cs : List Char) :
    floatOfSigned (true, cs) = (pyFloatMag cs).map (fun q => -q) := by
  unfold floatOfSigned
  simp

theorem floatOfSigned_pos (cs : List Char) :
    floatOfSigned (false, cs) = pyFloatMag cs := by
  unfold floatOfSigned
  cases pyFloatMag cs <;> simp

theorem floatReprMag_facts (q : ℚ) :
    (∀ c ∈ floatReprMag q, c.isWhitespace = false ∧ c ≠ ';' ∧ c ≠ '\n' ∧ c ≠ '\r') ∧
      ∃ a l, floatReprMag q = a :: l ∧ a ≠ '-' ∧ a ≠ '+' := by
  cases he : decExp? q.den with
  | none =>
    have hrepr : floatReprMag q = ['?'] := by
      unfold floatReprMag
      rw [he]
    rw [hrepr]
    refine ⟨?_, '?', [], rfl, by decide, by decide⟩
    intro c hc
    rw [List.mem_singleton] at hc
    subst hc
    exact ⟨by decide, by decide, by decide, by decide⟩
  | some e =>
    cases e with
    | zero =>
      have hrepr : floatReprMag q = natStr q.num.natAbs ++ ['.', '0'] := by
        unfold floatReprMag
        rw [he]
      rw [hrepr]
      obtain ⟨hval, hne, hdig⟩ := natStr_spec q.num.natAbs
      constructor
      · intro c hc
        rw [List.mem_append] at hc
        rcases hc with hc | hc
        · obtain ⟨_, _, hsemi, hnl, hcr, hws⟩ := hdig c hc
          exact ⟨hws, hsemi, hnl, hcr⟩
        · rw [List.mem_cons, List.mem_singleton] at hc
          rcases hc with rfl | rfl
          · exact ⟨by decide, by decide, by decide, by decide⟩
          · exact ⟨by decide, by decide, by decide, by decide⟩
      · obtain ⟨a, l, hx⟩ := List.exists_cons_of_ne_nil hne
        have ha : a.isDigit = true := (hdig a (by rw [hx]; simp)).1
        have hs := isDigit_ne_sign ha
        rw [hx]
        exact ⟨a, l ++ ['.', '0'], by simp, hs.1, hs.2.1⟩
    | succ e =>
      have hrepr : floatReprMag q =
          natStr (q.num.natAbs * (10 ^ (e + 1) / q.den) / 10 ^ (e + 1)) ++
            '.' :: padDigits (e + 1)
              (q.num.natAbs * (10 ^ (e + 1) / q.den) % 10 ^ (e + 1)) := by
        unfold floatReprMag
        rw [he]
      rw [hrepr]
      obtain ⟨hvalI, hneI, hdigI⟩ :=
        natStr_spec (q.num.natAbs * (10 ^ (e + 1) / q.den) / 10 ^ (e + 1))
      have hmod : q.num.natAbs * (10 ^ (e + 1) / q.den) % 10 ^ (e + 1) < 10 ^ (e + 1) :=
        Nat.mod_lt _ (Nat.pos_pow_of_pos _ (by omega))
      obtain ⟨hvalF, hdigF⟩ := padDigits_spec (e + 1) _ hmod
      constructor
      · intro c hc
        rw [List.mem_append] at hc
        rcases hc with hc | hc
        · obtain ⟨_, _, hsemi, hnl, hcr, hws⟩ := hdigI c hc
          exact ⟨hws, hsemi, hnl, hcr⟩
        · rcases List.mem_cons.mp hc with rfl | hc
          · exact ⟨by decide, by decide, by decide, by decide⟩
          · obtain ⟨_, _, hsemi, hnl, hcr, hws⟩ := hdigF c hc
            exact ⟨hws, hsemi, hnl, hcr⟩
      · obtain ⟨a, l, hx⟩ := List.exists_cons_of_ne_nil hneI
        have ha : a.isDigit = true := (hdigI a (by rw [hx]; simp)).1
        have hs := isDigit_ne_sign ha
        rw [hx]
        exact ⟨a, l ++ '.' :: padDigits (e + 1)
          (q.num.natAbs * (10 ^ (e + 1) / q.den) % 10 ^ (e + 1)), by simp, hs.1, hs.2.1⟩

/-- Round trip for floats: float(str(x)) is x, for every value
representable as a finite decimal (every Python float is). -/
theorem pyFloat_floatRepr (q : ℚ) (h : isDecQ q = true) : pyFloat? ⟨floatRepr q⟩ = some q := by
  obtain ⟨hchars, a, l, hal, ha1, ha2⟩ := floatReprMag_facts q
  have hmag := pyFloatMag_floatReprMag q h
  by_cases hq : q < 0
  · unfold pyFloat?
    have hlist : (String.mk (floatRepr q)).toList = '-' :: floatReprMag q := by
      show floatRepr q = '-' :: floatReprMag q
      rw [floatRepr, if_pos hq]
    have hws : ∀ c ∈ '-' :: floatReprMag q, c.isWhitespace = false := by
      intro c hc
      rcases List.mem_cons.mp hc with rfl | hc
      · decide
      · exact (hchars c hc).1
    rw [hlist, trimWS_eq_self hws]
    show floatOfSigned (true, floatReprMag q) = some q
    rw [floatOfSigned_neg, hmag, Option.map_some']
    have hnum : (q.num.natAbs : ℚ) = -(q.num : ℚ) := by
      rw [Int.cast_natAbs, abs_of_neg (Rat.num_neg.mpr hq), Int.cast_neg]
    rw [hnum, neg_div, neg_neg, Rat.num_div_den]
  · unfold pyFloat?
    have hlist : (String.mk (floatRepr q)).toList = floatReprMag q := by
      show floatRepr q = floatReprMag q
      rw [floatRepr, if_neg hq]
    have hws : ∀ c ∈ floatReprMag q, c.isWhitespace = false := fun c hc => (hchars c hc).1
    rw [hlist, trimWS_eq_self hws, hal, signSplit_other ha1 ha2, ← hal, floatOfSigned_pos,
      hmag]
    have hnum : (q.num.natAbs : ℚ) = (q.num : ℚ) := by
      rw [Int.cast_natAbs, abs_of_nonneg (Rat.num_nonneg.mpr (not_lt.mp hq))]
    rw [hnum, Rat.num_div_den]

/-! ## Lines and cells

Python file and csv behavior: reading a text file applies universal
newline translation; csv.reader yields one row per line, an empty row
for a blank line, and semicolon-separated cells otherwise (the data
never contains csv quoting); csv.writer terminates rows with CRLF;
readlines keeps line endings. -/

/-- Universal newline translation of text-mode reads: CRLF and lone CR
become LF. -/
def univNL : List Char → List Char
  | [] => []
  | '\r' :: '\n' :: rest => '\n' :: univNL rest
  | '\r' :: rest => '\n' :: univNL rest
  | c :: rest => c :: univNL rest

/-- str.split on a single separator: never empty, keeps empty fields. -/
def splitOnChar (sep : Char) : List Char → List (List Char)
  | [] => [[]]
  | c :: rest =>
    match splitOnChar sep rest with
    | [] => [[]]
    | h :: t => if c = sep then [] :: h :: t else (c :: h) :: t

/-- Line splitting as iterating a text file: no trailing empty line
after a final newline, and an empty file has no lines. -/
def pyLines (cs : List Char) : List (List Char) :=
  if cs.isEmpty then []
  else if cs.getLast? = some '\n' then (splitOnChar '\n' cs).dropLast
  else splitOnChar '\n' cs

/-- f.readlines(): lines with their newline kept. -/
def pyReadLines : List Char → List (List Char)
  | [] => []
  | c :: r =>
    match pyReadLines r with
    | [] => [[c]]
    | l :: ls => if c = '\n' then ['\n'] :: l :: ls else (c :: l) :: ls

/-- csv.reader rows over already-translated text: an empty row for a
blank line, semicolon-split cells otherwise. -/
def csvRowsOf (cs : List Char) : List (List (List Char)) :=
  (pyLines cs).map (fun l => if l.isEmpty then [] else splitOnChar ';' l)

/-! ## Tick record model (MarketData) -/

structure Tick where
  time : DateTime
  price : ℚ
  volume : ℤ
deriving DecidableEq, Repr

structure MarketData where
  symbol : Option String
  isin : Option String
  data : List Tick
deriving DecidableEq, Repr

/-- MarketData.encoded_rows: the rows with timestamp strictly after
start, in the stored order, with the datetime formatted. -/
def encoded_rows (md : MarketData) (start : DateTime) : List (String × ℚ × ℤ) :=
  (md.data.filter (fun t => start.lt t.time)).map
    (fun t => (str_datetime t.time, t.price, t.volume))

/-- A Python value as found in decoded JSON or a csv cell. -/
inductive PyVal where
  | vstr (s : String)
  | vfloat (q : ℚ)
  | vint (n : ℤ)
deriving DecidableEq, Repr

/-- float(x) on a decoded value. -/
def pyvFloat : PyVal → Option ℚ
  | .vstr s => pyFloat? s
  | .vfloat q => some q
  | .vint n => some (n : ℚ)

/-- int(x) on a decoded value (truncation toward zero on a float). -/
def pyvInt : PyVal → Option ℤ
  | .vstr s => pyInt? s
  | .vint n => some n
  | .vfloat q =>
    some (if 0 ≤ q.num then ((q.num.natAbs / q.den : Nat) : ℤ)
      else -((q.num.natAbs / q.den : Nat) : ℤ))

/-- parse_datetime on a decoded value (a non-string raises). -/
def pyvDt : PyVal → Option DateTime
  | .vstr s => parse_datetime s
  | _ => none

/-- One row of MarketData.from_rows: tuple unpacking demands exactly
three elements, then datetime/float/int conversion of the fields. -/
def parseRow (row : List PyVal) : Option Tick :=
  match row with
  | [a, b, c] =>
    match pyvDt a, pyvFloat b, pyvInt c with
    | some t, some p, some v => some (Tick.mk t p v)
    | _, _, _ => none
  | _ => none

def parseRows : List (List PyVal) → Option (List Tick)
  | [] => some []
  | row :: rest =>
    match parseRow row, parseRows rest with
    | some t, some l => some (t :: l)
    | _, _ => none

/-- MarketData.from_rows: parse every row in order; the first failure
aborts (a raised ValueError in the source). -/
def from_rows (symbol isin : Option String) (rows : List (List PyVal)) : Option MarketData :=
  (parseRows rows).map (fun data => MarketData.mk symbol isin data)

/-! ## JSON codec (modeled at the decoded-value level: json.dump and
json.load are mutually inverse on these documents, so the file is
represented by the decoded object) -/

structure JsonDoc where
  symbol : Option String
  isin : Option String
  ticks : List (List PyVal)
deriving DecidableEq, Repr

/-- An encoded row as it appears in the dumped JSON ticks array. -/
def encodeTick (r : String × ℚ × ℤ) : List PyVal := [.vstr r.1, .vfloat r.2.1, .vint r.2.2]

/-- The source's _write_json: old ticks then the filtered new rows. -/
def write_json (md : MarketData) (last_dt : DateTime) (old_ticks : List (List PyVal)) :
    JsonDoc :=
  JsonDoc.mk md.symbol md.isin (old_ticks ++ (encoded_rows md last_dt).map encodeTick)

/-- The source's _read_json. -/
def read_json (doc : JsonDoc) : Option MarketData :=
  from_rows doc.symbol doc.isin doc.ticks

/-- The source's _peek_json: the parsed timestamp of the last tick's
first field (EPOCH when there are no ticks) plus the raw old ticks;
none where the source raises BrokenFile. -/
def peek_json (doc : JsonDoc) : Option (DateTime × List (List PyVal)) :=
  match doc.ticks.getLast? with
  | none => some (EPOCH, [])
  | some row =>
    match row.head? with
    | none => none
    | some (.vstr s) => (parse_datetime s).map (fun dt => (dt, doc.ticks))
    | some _ => none

/-! ## CSV codec (file contents as character lists; csv.writer emits
CRLF row terminators, text-mode reads translate them back) -/

/-- One csv.writer row: str() of each field, semicolon separated,
CRLF terminated. -/
def renderRow (r : String × ℚ × ℤ) : List Char :=
  r.1.toList ++ ';' :: floatRepr r.2.1 ++ ';' :: intRepr r.2.2 ++ ['\r', '\n']

def csvRender : List (String × ℚ × ℤ) → List Char
  | [] => []
  | r :: rest => renderRow r ++ csvRender rest

/-- The source's _write_csv: the bytes appended to the file. -/
def write_csv (md : MarketData) (last_dt : DateTime) : List Char :=
  csvRender (encoded_rows md last_dt)

/-- The source's _read_csv over raw file bytes. -/
def read_csv (cs : List Char) : Option MarketData :=
  from_rows none none
    ((csvRowsOf (univNL cs)).map (fun row => row.map (fun cell => PyVal.vstr ⟨cell⟩)))

/-- The source's _peek_csv: parse the first semicolon field of the last
line; EPOCH for an empty file; old ticks are always empty for csv. -/
def peek_csv (cs : List Char) : Option (DateTime × List (List PyVal)) :=
  match (pyReadLines (univNL cs)).getLast? with
  | none => some (EPOCH, [])
  | some line =>
    (parse_datetime ⟨(splitOnChar ';' line).headD []⟩).map (fun dt => (dt, []))

/-! ## The raw export parser -/

/-- A regex word character (ASCII portion of \w). -/
def isWordChar (c : Char) : Bool := c.isAlphanum || c = '_'

/-- Try the header pattern at this position: an opening parenthesis,
a word group, a slash, a word group, a closing parenthesis. -/
def matchHeaderAt (cs : List Char) : Option (String × String) :=
  match cs with
  | '(' :: rest =>
    if (rest.takeWhile isWordChar).isEmpty then none
    else
      match rest.dropWhile isWordChar with
      | '/' :: r2 =>
        if (r2.takeWhile isWordChar).isEmpty then none
        else
          match r2.dropWhile isWordChar with
          | ')' :: _ => some (⟨rest.takeWhile isWordChar⟩, ⟨r2.takeWhile isWordChar⟩)
          | _ => none
      | _ => none
  | _ => none

/-- re.search of the header pattern: first matching position wins. -/
def reFindHeader : List Char → Option (String × String)
  | [] => none
  | c :: rest =>
    match matchHeaderAt (c :: rest) with
    | some r => some r
    | none => reFindHeader rest

/-- One data row of the export: at least three cells (the star pattern
absorbs extras), the stripped time concatenated to the date. -/
def parseRawRow (date_str : List Char) (row : List (List Char)) : Option Tick :=
  match row with
  | t :: price :: volume :: _ =>
    match parse_datetime ⟨date_str ++ ' ' :: trimWS t⟩, pyFloat? ⟨price⟩, pyInt? ⟨volume⟩ with
    | some dt, some p, some v => some (Tick.mk dt p v)
    | _, _, _ => none
  | _ => none

def parseRawRows (date_str : List Char) : List (List (List Char)) → Option (List Tick)
  | [] => some []
  | row :: rest =>
    match parseRawRow date_str row, parseRawRows date_str rest with
    | some t, some l => some (t :: l)
    | _, _ => none

/-- The source's _parse_raw: header symbol/isin from the first cell of
the first row, the date from the first cell of the second row, data
from rows 3..n-1 reversed; none where the source raises. -/
def parse_raw (raw : List Char) : Option (String × String × List Tick) :=
  match (csvRowsOf (univNL raw)).head? with
  | none => none
  | some row0 =>
    match row0.head? with
    | none => none
    | some cell0 =>
      match reFindHeader cell0 with
      | none => none
      | some (sym, isin) =>
        match (csvRowsOf (univNL raw))[1]? with
        | none => none
        | some row1 =>
          match row1.head? with
          | none => none
          | some dcell =>
            (parseRawRows (trimWS dcell) (((csvRowsOf (univNL raw)).drop 3).dropLast)).map
              (fun data => (sym, isin, data.reverse))

/-! ## Store model (the mongo collections as lists of records) -/

structure DbRow where
  symbol : Option String
  isin : Option String
  time : DateTime
  price : ℚ
  volume : ℤ
deriving DecidableEq, Repr

structure Stock where
  symbol : Option String
  isin : Option String
deriving DecidableEq, Repr

/-- find_one sorted by time descending: the maximum stored timestamp
for the symbol, none when no row matches. -/
def dbMaxTime (db : List DbRow) (sym : Option String) : Option DateTime :=
  match db with
  | [] => none
  | r :: rest =>
    if r.symbol = sym then
      some (match dbMaxTime rest sym with
        | none => r.time
        | some m => r.time.max m)
    else dbMaxTime rest sym

/-- The source's save_data_to_db: filter the incoming series to rows
strictly after the stored maximum, insert only when nonempty.  Returns
the new collection and whether insert was invoked. -/
def save_data_to_db (md : MarketData) (db : List DbRow) : List DbRow × Bool :=
  let start := (dbMaxTime db md.symbol).getD EPOCH
  let rows := (md.data.filter (fun t => start.lt t.time)).map
    (fun t => DbRow.mk md.symbol md.isin t.time t.price t.volume)
  if rows.isEmpty then (db, false) else (db ++ rows, true)

/-- The source's find_stock: first stock matching on symbol or isin. -/
def find_stock (stocks : List Stock) (x : String) : Option Stock :=
  stocks.find? (fun st => st.symbol = some x || st.isin = some x)

def insertRow (r : DbRow) : List DbRow → List DbRow
  | [] => [r]
  | x :: xs => if r.time.le x.time then r :: x :: xs else x :: insertRow r xs

/-- The store's ascending sort on the time field. -/
def sortByTime (l : List DbRow) : List DbRow := l.foldr insertRow []

/-- The source's load_data_from_db: resolve the stock, filter its ticks
to the optional closed range, sort ascending by time. -/
def load_data_from_db (stocks : List Stock) (db : List DbRow) (x : String)
    (fromT toT : Option DateTime) : Option MarketData :=
  match find_stock stocks x with
  | none => none
  | some st =>
    let rows := db.filter (fun r => decide (r.symbol = st.symbol) &&
      (match fromT with | none => true | some f => f.le r.time) &&
      (match toT with | none => true | some t => r.time.le t))
    some (MarketData.mk st.symbol st.isin
      ((sortByTime rows).map (fun r => Tick.mk r.time r.price r.volume)))

/-! ## save_data: destination-collision modes over a single file -/

inductive Mode where
  | strict
  | append
  | overwrite
deriving DecidableEq, Repr

inductive SaveResult (α : Type) where
  | written (new : α)
  | exitedExists
  | exitedBroken
deriving DecidableEq, Repr

/-- save_data for json format: the file opens in write mode, so any
write fully replaces the document. -/
def save_data_json (mode : Mode) (file : Option JsonDoc) (md : MarketData) :
    SaveResult JsonDoc :=
  match file with
  | none => .written (write_json md EPOCH [])
  | some old =>
    match mode with
    | .strict => .exitedExists
    | .overwrite => .written (write_json md EPOCH [])
    | .append =>
      match peek_json old with
      | none => .exitedBroken
      | some (last_dt, old_ticks) => .written (write_json md last_dt old_ticks)

/-- save_data for csv format: the file opens in append mode, so every
write (including overwrite mode) appends to the existing bytes. -/
def save_data_csv (mode : Mode) (file : Option (List Char)) (md : MarketData) :
    SaveResult (List Char) :=
  match file with
  | none => .written (write_csv md EPOCH)
  | some old =>
    match mode with
    | .strict => .exitedExists
    | .overwrite => .written (old ++ write_csv md EPOCH)
    | .append =>
      match peek_csv old with
      | none => .exitedBroken
      | some (last_dt, _) => .written (old ++ write_csv md last_dt)

/-- save_data with filename dash: no peek, a fresh write from EPOCH to
stdout. -/
def save_data_stdout_json (md : MarketData) : JsonDoc := write_json md EPOCH []

def save_data_stdout_csv (md : MarketData) : List Char := write_csv md EPOCH

/-! ## Orderedness of tick lists -/

def ticksSortedAsc : List Tick → Bool
  | [] => true
  | [_] => true
  | a :: b :: rest => a.time.le b.time && ticksSortedAsc (b :: rest)

def ticksSortedDesc : List Tick → Bool
  | [] => true
  | [_] => true
  | a :: b :: rest => b.time.le a.time && ticksSortedDesc (b :: rest)

/-! ## Lemmas on newline translation, line splitting and cells -/

theorem univNL_cons_ne {c : Char} (hc : c ≠ '\r') (rest : List Char) :
    univNL (c :: rest) = c :: univNL rest := by
  cases rest with
  | nil => simp [univNL, hc]
  | cons d r =>
    cases hd : decide (d = '\n') with
    | true => simp [univNL, hc]
    | false => simp [univNL, hc]

theorem univNL_no_cr {l : List Char} (h : ∀ c ∈ l, c ≠ '\r') : univNL l = l := by
  induction l with
  | nil => rfl
  | cons c r ih =>
    rw [univNL_cons_ne (h c (by simp)) r, ih (fun x hx => h x (by simp [hx]))]

theorem univNL_append_no_cr {a : List Char} (b : List Char) (h : ∀ c ∈ a, c ≠ '\r') :
    univNL (a ++ b) = a ++ univNL b := by
  induction a with
  | nil => rfl
  | cons c r ih =>
    rw [List.cons_append, univNL_cons_ne (h c (by simp)) (r ++ b),
      ih (fun x hx => h x (by simp [hx]))]
    rfl

theorem univNL_crlf (rest : List Char) : univNL ('\r' :: '\n' :: rest) = '\n' :: univNL rest := by
  simp [univNL]

theorem splitOnChar_cons (sep c : Char) (rest : List Char) :
    splitOnChar sep (c :: rest) =
      (match splitOnChar sep rest with
       | [] => [[]]
       | h :: t => if c = sep then [] :: h :: t else (c :: h) :: t) := rfl

theorem splitOnChar_ne_nil (sep : Char) (l : List Char) : splitOnChar sep l ≠ [] := by
  cases l with
  | nil => simp [splitOnChar]
  | cons c r =>
    rw [splitOnChar_cons]
    cases h : splitOnChar sep r with
    | nil => simp
    | cons h2 t => by_cases hc : c = sep <;> simp [hc]

theorem splitOnChar_no_sep {sep : Char} {l : List Char} (h : ∀ c ∈ l, c ≠ sep) :
    splitOnChar sep l = [l] := by
  induction l with
  | nil => rfl
  | cons c r ih =>
    rw [splitOnChar_cons, ih (fun x hx => h x (by simp [hx]))]
    simp [h c (by simp)]

theorem splitOnChar_append_sep {sep : Char} {a : List Char} (b : List Char)
    (h : ∀ c ∈ a, c ≠ sep) :
    splitOnChar sep (a ++ sep :: b) = a :: splitOnChar sep b := by
  induction a with
  | nil =>
    show splitOnChar sep (sep :: b) = [] :: splitOnChar sep b
    rw [splitOnChar_cons]
    cases hb : splitOnChar sep b with
    | nil => exact absurd hb (splitOnChar_ne_nil sep b)
    | cons h2 t => simp
  | cons c r ih =>
    show splitOnChar sep (c :: (r ++ sep :: b)) = (c :: r) :: splitOnChar sep b
    rw [splitOnChar_cons, ih (fun x hx => h x (by simp [hx]))]
    simp [h c (by simp)]

theorem pyReadLines_cons (c : Char) (r : List Char) :
    pyReadLines (c :: r) =
      (match pyReadLines r with
       | [] => [[c]]
       | l :: ls => if c = '\n' then ['\n'] :: l :: ls else (c :: l) :: ls) := rfl

theorem pyReadLines_ne_nil {l : List Char} (h : l ≠ []) : pyReadLines l ≠ [] := by
  cases l with
  | nil => exact absurd rfl h
  | cons c r =>
    rw [pyReadLines_cons]
    cases pyReadLines r with
    | nil => simp
    | cons x xs => by_cases hc : c = '\n' <;> simp [hc]

theorem pyReadLines_append {a : List Char} (b : List Char)
    (h : a = [] ∨ a.getLast? = some '\n') :
    pyReadLines (a ++ b) = pyReadLines a ++ pyReadLines b := by
  induction a with
  | nil => rfl
  | cons c r ih =>
    by_cases hrne : r = []
    · subst hrne
      have hc : c = '\n' := by
        rcases h with h | h
        · exact absurd h (by simp)
        · simpa using h
      subst hc
      show pyReadLines ('\n' :: b) = pyReadLines ['\n'] ++ pyReadLines b
      rw [pyReadLines_cons, show pyReadLines ['\n'] = [['\n']] from rfl]
      cases hb : pyReadLines b with
      | nil => simp
      | cons x xs => simp
    · have hlast : r.getLast? = some '\n' := by
        rcases h with h | h
        · exact absurd h (by simp)
        · obtain ⟨d, rr, hd⟩ := List.exists_cons_of_ne_nil hrne
          rw [hd] at h ⊢
          exact h
      have ihh := ih (Or.inr hlast)
      show pyReadLines (c :: (r ++ b)) = pyReadLines (c :: r) ++ pyReadLines b
      rw [pyReadLines_cons, pyReadLines_cons, ihh]
      have h1 : pyReadLines r ≠ [] := pyReadLines_ne_nil hrne
      cases hpr : pyReadLines r with
      | nil => exact absurd hpr h1
      | cons x xs => by_cases hc : c = '\n' <;> simp [hc]

theorem pyReadLines_single_line {l : List Char} (h : ∀ c ∈ l, c ≠ '\n') :
    pyReadLines (l ++ ['\n']) = [l ++ ['\n']] := by
  induction l with
  | nil => rfl
  | cons c r ih =>
    show pyReadLines (c :: (r ++ ['\n'])) = [c :: (r ++ ['\n'])]
    rw [pyReadLines_cons, ih (fun x hx => h x (by simp [hx]))]
    simp [h c (by simp)]

theorem pyLines_nil : pyLines [] = [] := rfl

theorem pyLines_cons_line {l : List Char} (rest : List Char) (hl : ∀ c ∈ l, c ≠ '\n') :
    pyLines (l ++ '\n' :: rest) = l :: pyLines rest := by
  have hsplit : splitOnChar '\n' (l ++ '\n' :: rest) = l :: splitOnChar '\n' rest :=
    splitOnChar_append_sep rest hl
  unfold pyLines
  have hne : (l ++ '\n' :: rest).isEmpty = false := by
    cases l <;> rfl
  rw [hne]
  by_cases hrne : rest = []
  · subst hrne
    have hlast : (l ++ '\n' :: ([] : List Char)).getLast? = some '\n' := by
      rw [List.getLast?_append_of_ne_nil l (by simp)]
      rfl
    rw [hlast]
    simp only [if_true, hsplit]
    show (l :: splitOnChar '\n' []).dropLast = [l]
    simp [splitOnChar]
  · have hlast : (l ++ '\n' :: rest).getLast? = rest.getLast? := by
      rw [List.getLast?_append_of_ne_nil l (by simp)]
      obtain ⟨d, rr, hd⟩ := List.exists_cons_of_ne_nil hrne
      rw [hd]
      rfl
    rw [hlast, hsplit]
    have hrestne : rest.isEmpty = false := by
      obtain ⟨d, rr, hd⟩ := List.exists_cons_of_ne_nil hrne
      rw [hd]
      rfl
    by_cases hend : rest.getLast? = some '\n'
    · simp only [hend, if_true, hrestne]
      rw [List.dropLast_cons_of_ne_nil (splitOnChar_ne_nil '\n' rest)]
      simp
    · simp only [if_neg hend, hrestne]
      simp

/-! ## Rendering tick lists and reading them back -/

/-- The encoded row triples of a full tick list (no watermark filter). -/
def ticksRows (l : List Tick) : List (String × ℚ × ℤ) :=
  l.map (fun t => (str_datetime t.time, t.price, t.volume))

/-- The csv bytes of a full tick list. -/
def csvOfTicks (l : List Tick) : List Char := csvRender (ticksRows l)

/-- The json ticks array of a full tick list. -/
def jsonOfTicks (l : List Tick) : List (List PyVal) := (ticksRows l).map encodeTick

theorem encoded_rows_eq (md : MarketData) (start : DateTime) :
    encoded_rows md start = ticksRows (md.data.filter (fun t => start.lt t.time)) := rfl

/-- The body of a rendered csv row, before the line terminator. -/
def renderRowBody (r : String × ℚ × ℤ) : List Char :=
  r.1.toList ++ ';' :: floatRepr r.2.1 ++ ';' :: intRepr r.2.2

theorem renderRow_eq (r : String × ℚ × ℤ) :
    renderRow r = renderRowBody r ++ ['\r', '\n'] := by
  simp [renderRow, renderRowBody]

/-- The newline-translated form of a rendered row. -/
def renderRowN (r : String × ℚ × ℤ) : List Char := renderRowBody r ++ ['\n']

def csvRenderN : List (String × ℚ × ℤ) → List Char
  | [] => []
  | r :: rest => renderRowN r ++ csvRenderN rest

theorem csvRender_append (a b : List (String × ℚ × ℤ)) :
    csvRender (a ++ b) = csvRender a ++ csvRender b := by
  induction a with
  | nil => rfl
  | cons r rest ih => simp [csvRender, ih]

theorem ticksRows_append (a b : List Tick) : ticksRows (a ++ b) = ticksRows a ++ ticksRows b := by
  simp [ticksRows]

theorem csvOfTicks_append (a b : List Tick) :
    csvOfTicks (a ++ b) = csvOfTicks a ++ csvOfTicks b := by
  rw [csvOfTicks, ticksRows_append, csvRender_append]
  rfl

theorem isDigit_excl {c : Char} (h : c.isDigit = true) :
    c ≠ ';' ∧ c ≠ '\r' ∧ c ≠ '\n' := by
  refine ⟨?_, ?_, ?_⟩ <;> rintro rfl <;> exact absurd h (by decide)

theorem padDigits_digits (e v : Nat) : ∀ c ∈ padDigits e v, c.isDigit = true := by
  induction e generalizing v with
  | zero => intro c hc; simp [padDigits] at hc
  | succ k ih =>
    intro c hc
    rw [padDigits, List.mem_append, List.mem_singleton] at hc
    rcases hc with hc | rfl
    · exact ih (v / 10) c hc
    · exact (dval_digitChar (v % 10) (Nat.mod_lt _ (by omega))).2

/-- Every character of a formatted datetime is a digit or one of the
separators, hence never a semicolon, carriage return or newline. -/
theorem str_datetime_chars (dt : DateTime) :
    ∀ c ∈ (str_datetime dt).toList, c ≠ ';' ∧ c ≠ '\r' ∧ c ≠ '\n' := by
  intro c hc
  have hc2 : c ∈ pad2 dt.day ++ '.' :: (pad2 dt.month ++ '.' :: (pad4 dt.year ++
      ' ' :: (pad2 dt.hour ++ ':' :: (pad2 dt.minute ++ ':' :: pad2 dt.second)))) := hc
  rcases List.mem_append.mp hc2 with h | h
  · exact isDigit_excl (padDigits_digits 2 dt.day c h)
  rcases List.mem_cons.mp h with rfl | h
  · exact ⟨by decide, by decide, by decide⟩
  rcases List.mem_append.mp h with h | h
  · exact isDigit_excl (padDigits_digits 2 dt.month c h)
  rcases List.mem_cons.mp h with rfl | h
  · exact ⟨by decide, by decide, by decide⟩
  rcases List.mem_append.mp h with h | h
  · exact isDigit_excl (padDigits_digits 4 dt.year c h)
  rcases List.mem_cons.mp h with rfl | h
  · exact ⟨by decide, by decide, by decide⟩
  rcases List.mem_append.mp h with h | h
  · exact isDigit_excl (padDigits_digits 2 dt.hour c h)
  rcases List.mem_cons.mp h with rfl | h
  · exact ⟨by decide, by decide, by decide⟩
  rcases List.mem_append.mp h with h | h
  · exact isDigit_excl (padDigits_digits 2 dt.minute c h)
  rcases List.mem_cons.mp h with rfl | h
  · exact ⟨by decide, by decide, by decide⟩
  exact isDigit_excl (padDigits_digits 2 dt.second c h)

theorem intRepr_chars (n : ℤ) : ∀ c ∈ intRepr n, c ≠ ';' ∧ c ≠ '\r' ∧ c ≠ '\n' := by
  intro c hc
  by_cases hn : n < 0
  · have heq : intRepr n = '-' :: natStr n.natAbs := by
      unfold intRepr
      rw [if_pos hn]
    rw [heq, List.mem_cons] at hc
    rcases hc with rfl | hc
    · exact ⟨by decide, by decide, by decide⟩
    · obtain ⟨_, _, h1, h2, h3, _⟩ := (natStr_spec n.natAbs).2.2 c hc
      exact ⟨h1, h3, h2⟩
  · have heq : intRepr n = natStr n.toNat := by
      unfold intRepr
      rw [if_neg hn]
    rw [heq] at hc
    obtain ⟨_, _, h1, h2, h3, _⟩ := (natStr_spec n.toNat).2.2 c hc
    exact ⟨h1, h3, h2⟩

theorem floatRepr_chars (q : ℚ) : ∀ c ∈ floatRepr q, c ≠ ';' ∧ c ≠ '\r' ∧ c ≠ '\n' := by
  intro c hc
  have hfacts := (floatReprMag_facts q).1
  by_cases hq : q < 0
  · have heq : floatRepr q = '-' :: floatReprMag q := by
      unfold floatRepr
      rw [if_pos hq]
    rw [heq, List.mem_cons] at hc
    rcases hc with rfl | hc
    · exact ⟨by decide, by decide, by decide⟩
    · obtain ⟨_, h1, h2, h3⟩ := hfacts c hc
      exact ⟨h1, h3, h2⟩
  · have heq : floatRepr q = floatReprMag q := by
      unfold floatRepr
      rw [if_neg hq]
    rw [heq] at hc
    obtain ⟨_, h1, h2, h3⟩ := hfacts c hc
    exact ⟨h1, h3, h2⟩

theorem renderRowBody_chars (t : Tick) :
    ∀ c ∈ renderRowBody (str_datetime t.time, t.price, t.volume),
      c ≠ '\r' ∧ c ≠ '\n' := by
  intro c hc
  have hc2 : c ∈ (str_datetime t.time).toList ++
      ';' :: (floatRepr t.price ++ ';' :: intRepr t.volume) := hc
  rcases List.mem_append.mp hc2 with h | h
  · obtain ⟨_, h2, h3⟩ := str_datetime_chars t.time c h
    exact ⟨h2, h3⟩
  rcases List.mem_cons.mp h with rfl | h
  · exact ⟨by decide, by decide⟩
  rcases List.mem_append.mp h with h | h
  · obtain ⟨_, h2, h3⟩ := floatRepr_chars t.price c h
    exact ⟨h2, h3⟩
  rcases List.mem_cons.mp h with rfl | h
  · exact ⟨by decide, by decide⟩
  obtain ⟨_, h2, h3⟩ := intRepr_chars t.volume c h
  exact ⟨h2, h3⟩

/-- Text-mode reading of written csv bytes: CRLF terminators become LF. -/
theorem univNL_csvOfTicks (l : List Tick) :
    univNL (csvOfTicks l) = csvRenderN (ticksRows l) := by
  induction l with
  | nil => rfl
  | cons t rest ih =>
    show univNL (csvRender (ticksRows (t :: rest))) = _
    have h1 : ticksRows (t :: rest) = (str_datetime t.time, t.price, t.volume) :: ticksRows rest :=
      rfl
    rw [h1]
    show univNL (renderRow (str_datetime t.time, t.price, t.volume) ++ csvRender (ticksRows rest)) = _
    rw [renderRow_eq, List.append_assoc]
    rw [univNL_append_no_cr _ (fun c hc => (renderRowBody_chars t c hc).1)]
    show _ = renderRowN (str_datetime t.time, t.price, t.volume) ++ csvRenderN (ticksRows rest)
    rw [show ((['\r', '\n'] : List Char) ++ csvRender (ticksRows rest)) =
      '\r' :: '\n' :: csvRender (ticksRows rest) from rfl, univNL_crlf, renderRowN,
      List.append_assoc]
    have ih2 : univNL (csvRender (ticksRows rest)) = csvRenderN (ticksRows rest) := ih
    rw [ih2]
    rfl

/-- readlines of translated csv bytes: one line per rendered row. -/
theorem pyReadLines_csvRenderN (rows : List (String × ℚ × ℤ))
    (h : ∀ r ∈ rows, ∀ c ∈ renderRowBody r, c ≠ '\n') :
    pyReadLines (csvRenderN rows) = rows.map (fun r => renderRowBody r ++ ['\n']) := by
  induction rows with
  | nil => rfl
  | cons r rest ih =>
    show pyReadLines (renderRowN r ++ csvRenderN rest) = _
    rw [renderRowN, pyReadLines_append (csvRenderN rest)
      (Or.inr (by rw [List.getLast?_append_of_ne_nil (renderRowBody r) (by simp)]; rfl)),
      pyReadLines_single_line (h r (by simp)), ih (fun x hx => h x (by simp [hx]))]
    rfl

/-- Line iteration of translated csv bytes: one body per rendered row. -/
theorem pyLines_csvRenderN (rows : List (String × ℚ × ℤ))
    (h : ∀ r ∈ rows, ∀ c ∈ renderRowBody r, c ≠ '\n') :
    pyLines (csvRenderN rows) = rows.map renderRowBody := by
  induction rows with
  | nil => rfl
  | cons r rest ih =>
    show pyLines (renderRowN r ++ csvRenderN rest) = _
    rw [renderRowN, List.append_assoc,
      show ((['\n'] : List Char) ++ csvRenderN rest) = '\n' :: csvRenderN rest from rfl,
      pyLines_cons_line (csvRenderN rest) (h r (by simp)),
      ih (fun x hx => h x (by simp [hx]))]
    rfl

/-! ## Reading back rendered tick lists -/

theorem str_datetime_ne_nil (dt : DateTime) : (str_datetime dt).toList ≠ [] := by
  show pad2 dt.day ++ _ ≠ []
  rw [pad2, padDigits]
  simp

theorem string_eta (s : String) : (⟨s.toList⟩ : String) = s := rfl

theorem splitOnChar_body (t : Tick) :
    splitOnChar ';' (renderRowBody (str_datetime t.time, t.price, t.volume)) =
      [(str_datetime t.time).toList, floatRepr t.price, intRepr t.volume] := by
  have h1 : renderRowBody (str_datetime t.time, t.price, t.volume) =
      (str_datetime t.time).toList ++ ';' :: (floatRepr t.price ++ ';' :: intRepr t.volume) :=
    rfl
  rw [h1, splitOnChar_append_sep _ (fun c hc => (str_datetime_chars t.time c hc).1),
    splitOnChar_append_sep _ (fun c hc => (floatRepr_chars t.price c hc).1),
    splitOnChar_no_sep (fun c hc => (intRepr_chars t.volume c hc).1)]

theorem splitOnChar_line_head (t : Tick) :
    (splitOnChar ';' (renderRowBody (str_datetime t.time, t.price, t.volume) ++
      ['\n'])).headD [] = (str_datetime t.time).toList := by
  have h1 : renderRowBody (str_datetime t.time, t.price, t.volume) ++ ['\n'] =
      (str_datetime t.time).toList ++
        ';' :: (floatRepr t.price ++ ';' :: intRepr t.volume ++ ['\n']) := by
    show ((str_datetime t.time).toList ++ ';' :: (floatRepr t.price ++ ';' :: intRepr t.volume)) ++
      ['\n'] = _
    simp
  rw [h1, splitOnChar_append_sep _ (fun c hc => (str_datetime_chars t.time c hc).1)]
  rfl

theorem ticksRows_no_nl (l : List Tick) :
    ∀ r ∈ ticksRows l, ∀ c ∈ renderRowBody r, c ≠ '\n' := by
  intro r hr c hc
  rw [ticksRows, List.mem_map] at hr
  obtain ⟨t, _, rfl⟩ := hr
  exact (renderRowBody_chars t c hc).2

/-- peek of a csv destination rendered from a nonempty tick list with
valid timestamps: the watermark is the last record's timestamp. -/
theorem peek_csv_ticks (l : List Tick) (tl : Tick) (hlast : l.getLast? = some tl)
    (hv : ∀ t ∈ l, validDT t.time = true) :
    peek_csv (csvOfTicks l) = some (tl.time, []) := by
  unfold peek_csv
  rw [univNL_csvOfTicks, pyReadLines_csvRenderN _ (ticksRows_no_nl l)]
  have hmap : ((ticksRows l).map (fun r => renderRowBody r ++ ['\n'])).getLast? =
      some (renderRowBody (str_datetime tl.time, tl.price, tl.volume) ++ ['\n']) := by
    rw [List.getLast?_map, ticksRows, List.getLast?_map, hlast]
    rfl
  rw [hmap]
  show (parse_datetime ⟨(splitOnChar ';'
    (renderRowBody (str_datetime tl.time, tl.price, tl.volume) ++ ['\n'])).headD []⟩).map _ = _
  rw [splitOnChar_line_head, string_eta,
    parse_str_datetime tl.time (hv tl (List.mem_of_mem_getLast? hlast))]
  rfl

/-- peek of the empty csv destination: EPOCH. -/
theorem peek_csv_nil : peek_csv (csvOfTicks []) = some (EPOCH, []) := rfl

/-- Step equation of parseRows. -/
theorem parseRows_cons (row : List PyVal) (rest : List (List PyVal)) :
    parseRows (row :: rest) =
      (match parseRow row, parseRows rest with
       | some t, some l => some (t :: l)
       | _, _ => none) := rfl

theorem ticksRows_cons (t : Tick) (rest : List Tick) :
    ticksRows (t :: rest) = (str_datetime t.time, t.price, t.volume) :: ticksRows rest := rfl

theorem parseRows_csv_ticks (l : List Tick)
    (hv : ∀ t ∈ l, validDT t.time = true ∧ isDecQ t.price = true) :
    parseRows (((ticksRows l).map (fun r => splitOnChar ';' (renderRowBody r))).map
      (fun row => row.map (fun cell => PyVal.vstr ⟨cell⟩))) = some l := by
  induction l with
  | nil => rfl
  | cons t rest ih =>
    have hrowp : parseRow ([(str_datetime t.time).toList, floatRepr t.price,
        intRepr t.volume].map (fun cell => PyVal.vstr ⟨cell⟩)) = some t := by
      show (match pyvDt (PyVal.vstr ⟨(str_datetime t.time).toList⟩),
        pyvFloat (PyVal.vstr ⟨floatRepr t.price⟩),
        pyvInt (PyVal.vstr ⟨intRepr t.volume⟩) with
        | some x, some p, some v => some (Tick.mk x p v)
        | _, _, _ => none) = some t
      rw [show pyvDt (PyVal.vstr ⟨(str_datetime t.time).toList⟩) =
        parse_datetime ⟨(str_datetime t.time).toList⟩ from rfl, string_eta,
        parse_str_datetime t.time (hv t (by simp)).1,
        show pyvFloat (PyVal.vstr ⟨floatRepr t.price⟩) = pyFloat? ⟨floatRepr t.price⟩ from rfl,
        pyFloat_floatRepr t.price (hv t (by simp)).2,
        show pyvInt (PyVal.vstr ⟨intRepr t.volume⟩) = pyInt? ⟨intRepr t.volume⟩ from rfl,
        pyInt_intRepr t.volume]
    rw [ticksRows_cons, List.map_cons, List.map_cons, parseRows_cons, splitOnChar_body t,
      hrowp, ih (fun x hx => hv x (by simp [hx]))]

/-- Reading back a rendered csv destination with valid timestamps and
decimal prices gives exactly the tick list, with unresolved identity. -/
theorem read_csv_ticks (l : List Tick)
    (hv : ∀ t ∈ l, validDT t.time = true ∧ isDecQ t.price = true) :
    read_csv (csvOfTicks l) = some (MarketData.mk none none l) := by
  unfold read_csv
  have hrows : csvRowsOf (univNL (csvOfTicks l)) = (ticksRows l).map
      (fun r => splitOnChar ';' (renderRowBody r)) := by
    unfold csvRowsOf
    rw [univNL_csvOfTicks, pyLines_csvRenderN _ (ticksRows_no_nl l), List.map_map]
    apply List.map_congr_left
    intro r hr
    rw [ticksRows, List.mem_map] at hr
    obtain ⟨t, _, rfl⟩ := hr
    have hne : (renderRowBody (str_datetime t.time, t.price, t.volume)).isEmpty = false := by
      have h1 : renderRowBody (str_datetime t.time, t.price, t.volume) =
          (str_datetime t.time).toList ++
            ';' :: (floatRepr t.price ++ ';' :: intRepr t.volume) := rfl
      rw [h1]
      cases hx : (str_datetime t.time).toList with
      | nil => exact absurd hx (str_datetime_ne_nil t.time)
      | cons a r => rfl
    show (if (renderRowBody (str_datetime t.time, t.price, t.volume)).isEmpty = true then []
      else splitOnChar ';' (renderRowBody (str_datetime t.time, t.price, t.volume))) = _
    rw [hne]
    simp
  rw [hrows]
  unfold from_rows
  rw [parseRows_csv_ticks l hv]
  rfl

/-! ## Reading back json documents -/

theorem parseRows_jsonOfTicks (l : List Tick) (hv : ∀ t ∈ l, validDT t.time = true) :
    parseRows (jsonOfTicks l) = some l := by
  induction l with
  | nil => rfl
  | cons t rest ih =>
    have hrowp : parseRow (encodeTick (str_datetime t.time, t.price, t.volume)) = some t := by
      show (match pyvDt (PyVal.vstr (str_datetime t.time)),
        pyvFloat (PyVal.vfloat t.price), pyvInt (PyVal.vint t.volume) with
        | some x, some p, some v => some (Tick.mk x p v)
        | _, _, _ => none) = some t
      rw [show pyvDt (PyVal.vstr (str_datetime t.time)) =
        parse_datetime (str_datetime t.time) from rfl,
        parse_str_datetime t.time (hv t (by simp))]
      rfl
    show parseRows (encodeTick (str_datetime t.time, t.price, t.volume) :: jsonOfTicks rest) =
      some (t :: rest)
    rw [parseRows_cons, hrowp, ih (fun x hx => hv x (by simp [hx]))]

theorem read_json_ticks (sym isin : Option String) (l : List Tick)
    (hv : ∀ t ∈ l, validDT t.time = true) :
    read_json (JsonDoc.mk sym isin (jsonOfTicks l)) = some (MarketData.mk sym isin l) := by
  unfold read_json from_rows
  rw [show (JsonDoc.mk sym isin (jsonOfTicks l)).ticks = jsonOfTicks l from rfl,
    parseRows_jsonOfTicks l hv]
  rfl

/-- peek of a json destination rendered from a nonempty valid tick
list: the watermark is the last record's timestamp and the old ticks
are returned unchanged. -/
theorem peek_json_ticks (sym isin : Option String) (l : List Tick) (tl : Tick)
    (hlast : l.getLast? = some tl) (hv : ∀ t ∈ l, validDT t.time = true) :
    peek_json (JsonDoc.mk sym isin (jsonOfTicks l)) = some (tl.time, jsonOfTicks l) := by
  unfold peek_json
  have hmap : (jsonOfTicks l).getLast? =
      some (encodeTick (str_datetime tl.time, tl.price, tl.volume)) := by
    rw [jsonOfTicks, List.getLast?_map, ticksRows, List.getLast?_map, hlast]
    rfl
  rw [show (JsonDoc.mk sym isin (jsonOfTicks l)).ticks = jsonOfTicks l from rfl, hmap]
  show (parse_datetime (str_datetime tl.time)).map _ = _
  rw [parse_str_datetime tl.time (hv tl (List.mem_of_mem_getLast? hlast))]
  rfl

theorem peek_json_nil (sym isin : Option String) :
    peek_json (JsonDoc.mk sym isin (jsonOfTicks [])) = some (EPOCH, []) := rfl

theorem jsonOfTicks_append (a b : List Tick) :
    jsonOfTicks (a ++ b) = jsonOfTicks a ++ jsonOfTicks b := by
  rw [jsonOfTicks, ticksRows_append, List.map_append]
  rfl

/-! ## Sortedness lemmas -/

theorem ticksSortedAsc_cons2 (a b : Tick) (r : List Tick) :
    ticksSortedAsc (a :: b :: r) = (a.time.le b.time && ticksSortedAsc (b :: r)) := rfl

theorem ticksSortedDesc_cons2 (a b : Tick) (r : List Tick) :
    ticksSortedDesc (a :: b :: r) = (b.time.le a.time && ticksSortedDesc (b :: r)) := rfl

theorem sortedAsc_tail {a : Tick} {r : List Tick} (h : ticksSortedAsc (a :: r) = true) :
    ticksSortedAsc r = true := by
  cases r with
  | nil => rfl
  | cons b rr =>
    rw [ticksSortedAsc_cons2, Bool.and_eq_true] at h
    exact h.2

theorem sortedAsc_head_le {a : Tick} {r : List Tick} (h : ticksSortedAsc (a :: r) = true) :
    ∀ t ∈ r, a.time.le t.time = true := by
  induction r generalizing a with
  | nil => intro t ht; simp at ht
  | cons b rr ih =>
    rw [ticksSortedAsc_cons2, Bool.and_eq_true] at h
    intro t ht
    rcases List.mem_cons.mp ht with rfl | ht
    · exact h.1
    · exact DateTime.le_trans h.1 (ih h.2 t ht)

theorem sortedAsc_cons_iff {a : Tick} {r : List Tick} :
    ticksSortedAsc (a :: r) = true ↔
      (∀ t ∈ r, a.time.le t.time = true) ∧ ticksSortedAsc r = true := by
  constructor
  · intro h
    exact ⟨sortedAsc_head_le h, sortedAsc_tail h⟩
  · rintro ⟨h1, h2⟩
    cases r with
    | nil => rfl
    | cons b rr =>
      rw [ticksSortedAsc_cons2, Bool.and_eq_true]
      exact ⟨h1 b (by simp), h2⟩

theorem sortedAsc_filter (p : Tick → Bool) {l : List Tick}
    (h : ticksSortedAsc l = true) : ticksSortedAsc (l.filter p) = true := by
  induction l with
  | nil => rfl
  | cons a r ih =>
    rw [sortedAsc_cons_iff] at h
    rw [List.filter_cons]
    by_cases hp : p a = true
    · rw [if_pos hp, sortedAsc_cons_iff]
      refine ⟨?_, ih h.2⟩
      intro t ht
      exact h.1 t (List.mem_of_mem_filter ht)
    · rw [if_neg hp]
      exact ih h.2

theorem sortedAsc_all_le_last {l : List Tick} {tl : Tick} (h : ticksSortedAsc l = true)
    (hlast : l.getLast? = some tl) : ∀ t ∈ l, t.time.le tl.time = true := by
  induction l with
  | nil => intro t ht; simp at ht
  | cons a r ih =>
    intro t ht
    cases hr : r with
    | nil =>
      subst hr
      have : tl = a := by
        rw [show (([a] : List Tick).getLast? = some a) from rfl] at hlast
        injection hlast with h2
        exact h2.symm
      subst this
      rcases List.mem_cons.mp ht with rfl | h2
      · exact DateTime.le_refl _
      · simp at h2
    | cons b rr =>
      have hlast2 : r.getLast? = some tl := by
        rw [hr] at hlast ⊢
        exact hlast
      rcases List.mem_cons.mp ht with rfl | h2
      · have hmemtl : tl ∈ r := List.mem_of_mem_getLast? (show tl ∈ r.getLast? by rw [hlast2]; rfl)
        rcases List.mem_cons.mp (show tl ∈ b :: rr by rw [← hr]; exact hmemtl) with h3 | h3
        · rw [hr] at h
          rw [ticksSortedAsc_cons2, Bool.and_eq_true] at h
          rw [← hr] at h
          subst h3
          exact h.1
        · have := sortedAsc_head_le h
          rw [hr] at this
          exact this tl (List.mem_cons.mpr (Or.inr h3))
      · exact ih (sortedAsc_tail h) hlast2 t h2

theorem sortedAsc_append_singleton {l : List Tick} {a : Tick} :
    ticksSortedAsc (l ++ [a]) = true ↔
      (ticksSortedAsc l = true ∧ ∀ t ∈ l, t.time.le a.time = true) := by
  induction l with
  | nil => simp [ticksSortedAsc]
  | cons b r ih =>
    rw [List.cons_append, sortedAsc_cons_iff, ih, sortedAsc_cons_iff]
    constructor
    · rintro ⟨h1, h2, h3⟩
      refine ⟨⟨fun t ht => h1 t (by simp [ht]), h2⟩, ?_⟩
      intro t ht
      rcases List.mem_cons.mp ht with rfl | ht
      · exact h1 a (by simp)
      · exact h3 t ht
    · rintro ⟨⟨h1, h2⟩, h3⟩
      refine ⟨?_, h2, fun t ht => h3 t (by simp [ht])⟩
      intro t ht
      rcases List.mem_append.mp ht with ht | ht
      · exact h1 t ht
      · rw [List.mem_singleton] at ht
        subst ht
        exact h3 b (by simp)

theorem sortedDesc_cons_iff {a : Tick} {r : List Tick} :
    ticksSortedDesc (a :: r) = true ↔
      (∀ t ∈ r, t.time.le a.time = true) ∧ ticksSortedDesc r = true := by
  constructor
  · intro h
    constructor
    · induction r generalizing a with
      | nil => intro t ht; simp at ht
      | cons b rr ih =>
        rw [ticksSortedDesc_cons2, Bool.and_eq_true] at h
        intro t ht
        rcases List.mem_cons.mp ht with rfl | ht
        · exact h.1
        · exact DateTime.le_trans (ih h.2 t ht) h.1
    · cases r with
      | nil => rfl
      | cons b rr =>
        rw [ticksSortedDesc_cons2, Bool.and_eq_true] at h
        exact h.2
  · rintro ⟨h1, h2⟩
    cases r with
    | nil => rfl
    | cons b rr =>
      rw [ticksSortedDesc_cons2, Bool.and_eq_true]
      exact ⟨h1 b (by simp), h2⟩

/-- The reverse of a newest-first list is oldest-first. -/
theorem sortedAsc_reverse_of_desc {l : List Tick} (h : ticksSortedDesc l = true) :
    ticksSortedAsc l.reverse = true := by
  induction l with
  | nil => rfl
  | cons a r ih =>
    rw [sortedDesc_cons_iff] at h
    rw [List.reverse_cons, sortedAsc_append_singleton]
    refine ⟨ih h.2, ?_⟩
    intro t ht
    exact h.1 t (List.mem_reverse.mp ht)

/-! ## Store lemmas -/

def dbSortedAsc : List DbRow → Bool
  | [] => true
  | [_] => true
  | a :: b :: rest => a.time.le b.time && dbSortedAsc (b :: rest)

theorem dbSortedAsc_cons2 (a b : DbRow) (r : List DbRow) :
    dbSortedAsc (a :: b :: r) = (a.time.le b.time && dbSortedAsc (b :: r)) := rfl

theorem insertRow_cons (r x : DbRow) (xs : List DbRow) :
    insertRow r (x :: xs) =
      if r.time.le x.time then r :: x :: xs else x :: insertRow r xs := rfl

theorem insertRow_head (r : DbRow) (l : List DbRow) :
    ∃ y ys, insertRow r l = y :: ys ∧ (y = r ∨ ∃ xs, l = y :: xs) := by
  cases l with
  | nil => exact ⟨r, [], rfl, Or.inl rfl⟩
  | cons x xs =>
    by_cases h : r.time.le x.time = true
    · refine ⟨r, x :: xs, ?_, Or.inl rfl⟩
      rw [insertRow_cons, if_pos h]
    · refine ⟨x, insertRow r xs, ?_, Or.inr ⟨xs, rfl⟩⟩
      rw [insertRow_cons, if_neg h]

theorem insertRow_sorted {r : DbRow} {l : List DbRow} (h : dbSortedAsc l = true) :
    dbSortedAsc (insertRow r l) = true := by
  induction l with
  | nil => rfl
  | cons x xs ih =>
    rw [insertRow_cons]
    by_cases hle : r.time.le x.time = true
    · rw [if_pos hle, dbSortedAsc_cons2, Bool.and_eq_true]
      exact ⟨hle, h⟩
    · rw [if_neg hle]
      have hxs : dbSortedAsc xs = true := by
        cases xs with
        | nil => rfl
        | cons y ys =>
          rw [dbSortedAsc_cons2, Bool.and_eq_true] at h
          exact h.2
      have hxr : x.time.le r.time = true := by
        rcases DateTime.le_total r.time x.time with h2 | h2
        · exact absurd h2 hle
        · exact h2
      obtain ⟨y, ys, hy, hcase⟩ := insertRow_head r xs
      rw [hy, dbSortedAsc_cons2, Bool.and_eq_true]
      constructor
      · rcases hcase with rfl | ⟨zs, hz⟩
        · exact hxr
        · rw [hz] at h
          rw [dbSortedAsc_cons2, Bool.and_eq_true] at h
          exact h.1
      · rw [← hy]
        exact ih hxs

theorem sortByTime_sorted (l : List DbRow) : dbSortedAsc (sortByTime l) = true := by
  induction l with
  | nil => rfl
  | cons r rest ih => exact insertRow_sorted ih

theorem ticksSortedAsc_of_dbSorted {l : List DbRow} (h : dbSortedAsc l = true) :
    ticksSortedAsc (l.map (fun r => Tick.mk r.time r.price r.volume)) = true := by
  induction l with
  | nil => rfl
  | cons a r ih =>
    cases r with
    | nil => rfl
    | cons b rr =>
      rw [dbSortedAsc_cons2, Bool.and_eq_true] at h
      show ticksSortedAsc (Tick.mk a.time a.price a.volume ::
        Tick.mk b.time b.price b.volume ::
        List.map (fun r => Tick.mk r.time r.price r.volume) rr) = true
      rw [ticksSortedAsc_cons2, Bool.and_eq_true]
      exact ⟨h.1, ih h.2⟩

theorem dbMaxTime_cons (r : DbRow) (rest : List DbRow) (sym : Option String) :
    dbMaxTime (r :: rest) sym =
      (if r.symbol = sym then
        some (match dbMaxTime rest sym with
          | none => r.time
          | some m => r.time.max m)
      else dbMaxTime rest sym) := rfl

/-- Every matching row's timestamp is bounded by the stored maximum. -/
theorem dbMaxTime_ge {db : List DbRow} {sym : Option String} :
    ∀ r ∈ db, r.symbol = sym →
      ∃ m, dbMaxTime db sym = some m ∧ r.time.le m = true := by
  induction db with
  | nil => intro r hr; simp at hr
  | cons x xs ih =>
    intro r hr hsym
    rw [dbMaxTime_cons]
    rcases List.mem_cons.mp hr with rfl | hr
    · rw [if_pos hsym]
      cases hm : dbMaxTime xs sym with
      | none => exact ⟨r.time, rfl, DateTime.le_refl _⟩
      | some m => exact ⟨r.time.max m, rfl, DateTime.le_max_left _ _⟩
    · obtain ⟨m, hm, hle⟩ := ih r hr hsym
      by_cases hx : x.symbol = sym
      · rw [if_pos hx, hm]
        exact ⟨x.time.max m, rfl, DateTime.le_trans hle (DateTime.le_max_right _ _)⟩
      · rw [if_neg hx]
        exact ⟨m, hm, hle⟩

/-- Appending rows can only raise the stored maximum. -/
theorem dbMaxTime_mono_append {sym : Option String} (l : List DbRow) :
    ∀ (db : List DbRow) (m0 : DateTime), dbMaxTime db sym = some m0 →
      ∃ m1, dbMaxTime (db ++ l) sym = some m1 ∧ m0.le m1 = true := by
  intro db
  induction db with
  | nil => intro m0 h; simp [dbMaxTime] at h
  | cons x xs ih =>
    intro m0 h
    rw [dbMaxTime_cons] at h
    rw [List.cons_append, dbMaxTime_cons]
    by_cases hx : x.symbol = sym
    · rw [if_pos hx] at h ⊢
      injection h with h
      cases hxs : dbMaxTime xs sym with
      | none =>
        rw [hxs] at h
        cases hap : dbMaxTime (xs ++ l) sym with
        | none => exact ⟨x.time, rfl, by rw [← h]; exact DateTime.le_refl _⟩
        | some m2 => exact ⟨x.time.max m2, rfl, by rw [← h]; exact DateTime.le_max_left _ _⟩
      | some mx =>
        rw [hxs] at h
        obtain ⟨m1, hm1, hle1⟩ := ih mx hxs
        rw [hm1]
        refine ⟨x.time.max m1, rfl, ?_⟩
        rw [← h]
        exact DateTime.max_le (DateTime.le_max_left _ _)
          (DateTime.le_trans hle1 (DateTime.le_max_right _ _))
    · rw [if_neg hx] at h ⊢
      exact ih m0 h

/-- The stored maximum is below any upper bound of the matching rows. -/
theorem dbMaxTime_ub {sym : Option String} {T : DateTime} :
    ∀ (db : List DbRow) (m : DateTime),
      (∀ r ∈ db, r.symbol = sym → r.time.le T = true) →
      dbMaxTime db sym = some m → m.le T = true := by
  intro db
  induction db with
  | nil => intro m _ hm; simp [dbMaxTime] at hm
  | cons x xs ih =>
    intro m hub hm
    rw [dbMaxTime_cons] at hm
    by_cases hx : x.symbol = sym
    · rw [if_pos hx] at hm
      injection hm with hm
      cases hxs : dbMaxTime xs sym with
      | none =>
        rw [hxs] at hm
        rw [← hm]
        exact hub x (by simp) hx
      | some mx =>
        rw [hxs] at hm
        rw [← hm]
        exact DateTime.max_le (hub x (by simp) hx)
          (ih mx (fun r hr hs => hub r (by simp [hr]) hs) hxs)
    · rw [if_neg hx] at hm
      exact ih m (fun r hr hs => hub r (by simp [hr]) hs) hm

/-- If a matching row attains T and every matching row is at or below
T, the stored maximum is exactly T. -/
theorem dbMaxTime_eq {db : List DbRow} {sym : Option String} {T : DateTime}
    (hub : ∀ r ∈ db, r.symbol = sym → r.time.le T = true)
    (hmem : ∃ r ∈ db, r.symbol = sym ∧ r.time = T) :
    dbMaxTime db sym = some T := by
  obtain ⟨r0, hr0, hsym0, htime0⟩ := hmem
  obtain ⟨m, hm, hle⟩ := dbMaxTime_ge r0 hr0 hsym0
  have hmub : m.le T = true := dbMaxTime_ub db m hub hm
  rw [htime0] at hle
  have heq : m = T := by
    rw [DateTime.le_iff] at hle hmub
    rcases hle with hlt1 | heq1
    · rcases hmub with hlt2 | heq2
      · exact absurd (DateTime.lt_trans hlt1 hlt2) (by rw [DateTime.lt_iff]; omega)
      · exact heq2
    · exact heq1.symm
  rw [hm, heq]

/-! ## Claim theorems -/

theorem firstSome_map_none_iff {α β : Type} (f : α → Option β) (l : List α) :
    firstSome (l.map f) = none ↔ ∀ x ∈ l, f x = none := by
  induction l with
  | nil => simp [firstSome]
  | cons a r ih =>
    rw [List.map_cons]
    cases hfa : f a with
    | none =>
      rw [show firstSome (none :: r.map f) = firstSome (r.map f) from rfl, ih]
      constructor
      · intro h x hx
        rcases List.mem_cons.mp hx with rfl | hx
        · exact hfa
        · exact h x hx
      · intro h x hx
        exact h x (by simp [hx])
    | some b =>
      rw [show firstSome (some b :: r.map f) = some b from rfl]
      constructor
      · intro h; exact absurd h (by simp)
      · intro h
        have := h a (by simp)
        rw [hfa] at this
        exact absurd this (by simp)

theorem firstSome_map_head {α β : Type} (f : α → Option β) (x : α) (l : List α) (b : β)
    (h : f x = some b) : firstSome ((x :: l).map f) = some b := by
  rw [List.map_cons, h]
  rfl

/-- C7: the range-boundary parser tries the five formats in order with
the first match winning: a bare date parses to midnight, a date with
hours and minutes parses with minute precision, an input matching no
format fails, and a bare-date match short-circuits the later formats. -/
theorem C7_datetime_precedence :
    parse_datetime_multi "30.07.2014" = some ⟨2014, 7, 30, 0, 0, 0⟩ ∧
    parse_datetime_multi "30.07.2014 15:05" = some ⟨2014, 7, 30, 15, 5, 0⟩ ∧
    (∀ s : String, parse_datetime_multi s = none ↔ ∀ f ∈ FORMATS, strptime f s = none) ∧
    (∀ (s : String) (d : DateTime), strptime fmtDate s = some d →
      parse_datetime_multi s = some d) := by
  refine ⟨by decide, by decide, ?_, ?_⟩
  · intro s
    exact firstSome_map_none_iff (fun f => strptime f s) FORMATS
  · intro s d h
    exact firstSome_map_head (fun f => strptime f s) fmtDate
      [fmtDateTHM, fmtDateTHMS, fmtDateHM, fmtFull] d h

theorem C7_witness : parse_datetime_multi "31.12.2020" = some ⟨2020, 12, 31, 0, 0, 0⟩ :=
  C7_datetime_precedence.2.2.2 "31.12.2020" ⟨2020, 12, 31, 0, 0, 0⟩ (by decide)

/-- C10: every file-writing path that starts from the EPOCH watermark
(fresh files, stdout, and overwrite mode) emits exactly the records
with timestamp strictly after EPOCH, so a record at or before EPOCH is
dropped even from a fresh or full write; a series entirely at or
before EPOCH produces an empty output. -/
theorem C10_epoch_drop :
    (∀ md : MarketData,
      save_data_stdout_json md =
        JsonDoc.mk md.symbol md.isin (jsonOfTicks (md.data.filter (fun t => EPOCH.lt t.time))) ∧
      save_data_stdout_csv md = csvOfTicks (md.data.filter (fun t => EPOCH.lt t.time)) ∧
      save_data_json .strict none md = .written (JsonDoc.mk md.symbol md.isin
        (jsonOfTicks (md.data.filter (fun t => EPOCH.lt t.time)))) ∧
      save_data_csv .strict none md =
        .written (csvOfTicks (md.data.filter (fun t => EPOCH.lt t.time))) ∧
      (∀ old : JsonDoc, save_data_json .overwrite (some old) md = .written (JsonDoc.mk md.symbol
        md.isin (jsonOfTicks (md.data.filter (fun t => EPOCH.lt t.time)))))) ∧
    (∀ md : MarketData, (∀ t ∈ md.data, t.time.le EPOCH = true) →
      save_data_stdout_json md = JsonDoc.mk md.symbol md.isin [] ∧
      save_data_stdout_csv md = []) := by
  constructor
  · intro md
    exact ⟨rfl, rfl, rfl, rfl, fun old => rfl⟩
  · intro md h
    have hfe : md.data.filter (fun t => EPOCH.lt t.time) = [] := by
      apply List.filter_eq_nil_iff.mpr
      intro t ht
      rw [Bool.not_eq_true, DateTime.not_lt]
      exact h t ht
    constructor
    · show JsonDoc.mk md.symbol md.isin
        (jsonOfTicks (md.data.filter (fun t => EPOCH.lt t.time))) = _
      rw [hfe]
      rfl
    · show csvOfTicks (md.data.filter (fun t => EPOCH.lt t.time)) = []
      rw [hfe]
      rfl

theorem C10_witness :
    save_data_stdout_json (MarketData.mk (some "A") (some "B") [Tick.mk EPOCH 1 1]) =
      JsonDoc.mk (some "A") (some "B") [] :=
  (C10_epoch_drop.2 (MarketData.mk (some "A") (some "B") [Tick.mk EPOCH 1 1]) (by decide)).1

/-- C3: overwrite mode fully replaces a json destination, but a csv
destination is opened in append mode, so overwrite mode appends after
the old bytes instead of replacing them; shown at a concrete file. -/
theorem C3_overwrite_behavior :
    (∀ (old : JsonDoc) (md : MarketData),
      save_data_json .overwrite (some old) md = .written (write_json md EPOCH [])) ∧
    save_data_csv .overwrite (some ("29.07.2014 15:23:03;21.52;5738\r\n".toList))
        (MarketData.mk (some "ABBN") (some "CH0012221716")
          [Tick.mk ⟨2014, 7, 30, 1, 10, 0⟩ (221/10 : ℚ) 2305]) =
      .written ("29.07.2014 15:23:03;21.52;5738\r\n".toList ++
        "30.07.2014 01:10:00;22.1;2305\r\n".toList) := by
  refine ⟨fun old md => rfl, ?_⟩
  with_unfolding_all decide

set_option maxRecDepth 2000 in
/-- C9 counterexample: the csv reader returns records in file order and
does not sort, so a file with a later timestamp first produces a
series that is not ascending. -/
theorem C9_counterexample :
    read_csv ("29.07.2014 15:24:35;21.6;9010\r\n29.07.2014 15:23:03;21.52;5738\r\n".toList) =
      some (MarketData.mk none none
        [Tick.mk ⟨2014, 7, 29, 15, 24, 35⟩ (mkRat 108 5) 9010,
         Tick.mk ⟨2014, 7, 29, 15, 23, 3⟩ (mkRat 538 25) 5738]) ∧
    ticksSortedAsc
        [Tick.mk ⟨2014, 7, 29, 15, 24, 35⟩ (mkRat 108 5) 9010,
         Tick.mk ⟨2014, 7, 29, 15, 23, 3⟩ (mkRat 538 25) 5738] = false := by
  constructor
  · have hfile : "29.07.2014 15:24:35;21.6;9010\r\n29.07.2014 15:23:03;21.52;5738\r\n".toList =
        csvOfTicks [Tick.mk ⟨2014, 7, 29, 15, 24, 35⟩ (mkRat 108 5) 9010,
          Tick.mk ⟨2014, 7, 29, 15, 23, 3⟩ (mkRat 538 25) 5738] := by
      with_unfolding_all decide
    rw [hfile]
    exact read_csv_ticks _ (by with_unfolding_all decide)
  · decide

/-- C9 amended: the store reader always returns records sorted
ascending by time; the raw export parser returns an ascending list
provided the parsed data rows were newest-first; the file readers
preserve file order and so need no sorting hypothesis only when the
file itself is ascending. -/
theorem C9_sorted_constructors :
    (∀ (stocks : List Stock) (db : List DbRow) (x : String) (fromT toT : Option DateTime)
      (md : MarketData), load_data_from_db stocks db x fromT toT = some md →
        ticksSortedAsc md.data = true) ∧
    (∀ (raw : List Char) (sym isin : String) (data : List Tick),
      parse_raw raw = some (sym, isin, data) → ticksSortedDesc data.reverse = true →
        ticksSortedAsc data = true) := by
  constructor
  · intro stocks db x fromT toT md h
    unfold load_data_from_db at h
    cases hst : find_stock stocks x with
    | none => rw [hst] at h; exact absurd h (by simp)
    | some st =>
      rw [hst] at h
      injection h with h
      rw [← h]
      exact ticksSortedAsc_of_dbSorted (sortByTime_sorted _)
  · intro raw sym isin data _ hdesc
    have := sortedAsc_reverse_of_desc hdesc
    rwa [List.reverse_reverse] at this

theorem C9_witness :
    ticksSortedAsc (MarketData.mk (some "ABBN") (some "CH0012221716")
      ([] : List Tick)).data = true :=
  C9_sorted_constructors.1 [Stock.mk (some "ABBN") (some "CH0012221716")] [] "ABBN"
    none none (MarketData.mk (some "ABBN") (some "CH0012221716") []) (by decide)

theorem parseRows_none_iff (rows : List (List PyVal)) :
    parseRows rows = none ↔ ∃ row ∈ rows, parseRow row = none := by
  induction rows with
  | nil => simp [parseRows]
  | cons r rest ih =>
    rw [parseRows_cons]
    cases hr : parseRow r with
    | none =>
      have hml : (match (none : Option Tick), parseRows rest with
          | some t, some l => some (t :: l)
          | _, _ => none) = (none : Option (List Tick)) := by
        cases parseRows rest <;> rfl
      rw [hml]
      constructor
      · intro _
        exact ⟨r, by simp, hr⟩
      · intro _
        rfl
    | some t =>
      cases hrest : parseRows rest with
      | none =>
        constructor
        · intro _
          obtain ⟨row, hrow, hnone⟩ := ih.mp hrest
          exact ⟨row, by simp [hrow], hnone⟩
        · intro _
          rfl
      | some l =>
        constructor
        · intro h
          exact absurd h (by simp)
        · rintro ⟨row, hrow, hnone⟩
          rcases List.mem_cons.mp hrow with rfl | hrow
          · rw [hr] at hnone
            exact absurd hnone (by simp)
          · have h2 : parseRows rest = none := ih.mpr ⟨row, hrow, hnone⟩
            rw [hrest] at h2
            exact absurd h2 (by simp)

theorem parseRows_some_map (rows : List (List PyVal)) (l : List Tick)
    (h : parseRows rows = some l) : rows.map parseRow = l.map some := by
  induction rows generalizing l with
  | nil =>
    cases l with
    | nil => rfl
    | cons t r => exact absurd h (by simp [parseRows])
  | cons r rest ih =>
    rw [parseRows_cons] at h
    cases hr : parseRow r with
    | none => rw [hr] at h; exact absurd h (by simp)
    | some t =>
      rw [hr] at h
      cases hrest : parseRows rest with
      | none => rw [hrest] at h; exact absurd h (by simp)
      | some l2 =>
        rw [hrest] at h
        injection h with h
        rw [← h, List.map_cons, hr, ih l2 hrest]
        rfl

set_option maxRecDepth 2000 in
/-- C8 counterexample: a row with a fourth column is rejected with
BrokenFile even though its first three fields parse, while the same
row without the extra column is accepted; extra columns are not
ignored. -/
theorem C8_counterexample :
    read_csv ("29.07.2014 15:23:03;21.52;5738;9\r\n".toList) = none ∧
    read_csv ("29.07.2014 15:23:03;21.52;5738\r\n".toList) =
      some (MarketData.mk none none
        [Tick.mk ⟨2014, 7, 29, 15, 23, 3⟩ (mkRat 538 25) 5738]) := by
  constructor
  · unfold read_csv from_rows
    have hrows : csvRowsOf (univNL ("29.07.2014 15:23:03;21.52;5738;9\r\n".toList)) =
        [["29.07.2014 15:23:03".toList, "21.52".toList, "5738".toList, "9".toList]] := by
      with_unfolding_all decide
    rw [hrows]
    have hnone : parseRows ([["29.07.2014 15:23:03".toList, "21.52".toList, "5738".toList,
        "9".toList]].map (fun row => row.map (fun cell => PyVal.vstr ⟨cell⟩))) = none :=
      (parseRows_none_iff _).mpr
        ⟨["29.07.2014 15:23:03".toList, "21.52".toList, "5738".toList, "9".toList].map
          (fun cell => PyVal.vstr ⟨cell⟩), by simp, rfl⟩
    rw [hnone]
    rfl
  · have hfile : "29.07.2014 15:23:03;21.52;5738\r\n".toList =
        csvOfTicks [Tick.mk ⟨2014, 7, 29, 15, 23, 3⟩ (mkRat 538 25) 5738] := by
      with_unfolding_all decide
    rw [hfile]
    exact read_csv_ticks _ (by with_unfolding_all decide)

/-- C8 amended: a successful csv read leaves symbol and isin
unresolved and parses the rows in order; the read fails exactly when
some row fails to parse, where a row parses only when it has exactly
three cells whose fields convert (extra cells are a failure, not
ignored). -/
theorem C8_read_csv (content : String) :
    (∀ md, read_csv content.toList = some md → md.symbol = none ∧ md.isin = none ∧
      (csvRowsOf (univNL content.toList)).map
          (fun row => parseRow (row.map (fun cell => PyVal.vstr ⟨cell⟩))) =
        md.data.map some) ∧
    (read_csv content.toList = none ↔
      ∃ row ∈ csvRowsOf (univNL content.toList),
        parseRow (row.map (fun cell => PyVal.vstr ⟨cell⟩)) = none) := by
  constructor
  · intro md h
    unfold read_csv from_rows at h
    cases hp : parseRows ((csvRowsOf (univNL content.toList)).map
        (fun row => row.map (fun cell => PyVal.vstr ⟨cell⟩))) with
    | none => rw [hp] at h; exact absurd h (by simp)
    | some l =>
      rw [hp] at h
      rw [Option.map_some'] at h
      injection h with h
      refine ⟨by rw [← h], by rw [← h], ?_⟩
      have := parseRows_some_map _ l hp
      rw [List.map_map] at this
      rw [← h]
      exact this
  · unfold read_csv from_rows
    cases hp : parseRows ((csvRowsOf (univNL content.toList)).map
        (fun row => row.map (fun cell => PyVal.vstr ⟨cell⟩))) with
    | none =>
      simp only [Option.map_none', true_iff]
      obtain ⟨row, hrow, hnone⟩ := (parseRows_none_iff _).mp hp
      rw [List.mem_map] at hrow
      obtain ⟨row0, hrow0, rfl⟩ := hrow
      exact ⟨row0, hrow0, hnone⟩
    | some l =>
      simp only [Option.map_some']
      constructor
      · intro h; exact absurd h (by simp)
      · rintro ⟨row, hrow, hnone⟩
        have : parseRows ((csvRowsOf (univNL content.toList)).map
            (fun row => row.map (fun cell => PyVal.vstr ⟨cell⟩))) = none :=
          (parseRows_none_iff _).mpr ⟨row.map (fun cell => PyVal.vstr ⟨cell⟩),
            List.mem_map.mpr ⟨row, hrow, rfl⟩, hnone⟩
        rw [hp] at this
        exact absurd this (by simp)

theorem C8_witness :
    (MarketData.mk none none ([] : List Tick)).symbol = none :=
  ((C8_read_csv "").1 (MarketData.mk none none []) rfl).1

/-- Step equation of parseRawRows. -/
theorem parseRawRows_cons (d : List Char) (row : List (List Char))
    (rest : List (List (List Char))) :
    parseRawRows d (row :: rest) =
      (match parseRawRow d row, parseRawRows d rest with
       | some t, some l => some (t :: l)
       | _, _ => none) := rfl

set_option maxRecDepth 4000 in
/-- C5: the raw export parser on the concrete ABBN export returns the
header symbol and isin and the two records reversed into ascending
order; in general a successful parse always takes symbol and isin from
the header found in the first cell, the date prefix from the second
row's first cell, and returns the parsed kept rows reversed; and each
data row's timestamp is parsed from the date string, a space, and the
stripped time cell. -/
theorem C5_raw_parse :
    (parse_raw ("ABB LTD (ABBN/CH0012221716)\n29.07.2014\nTime;Price;Volume\n15:24:35;21.6;9010\n15:23:03;21.52;5738\n\n".toList) =
        some ("ABBN", "CH0012221716",
          [Tick.mk ⟨2014, 7, 29, 15, 23, 3⟩ (mkRat 538 25) 5738,
           Tick.mk ⟨2014, 7, 29, 15, 24, 35⟩ (mkRat 108 5) 9010]) ∧
      ticksSortedAsc
          [Tick.mk ⟨2014, 7, 29, 15, 23, 3⟩ (mkRat 538 25) 5738,
           Tick.mk ⟨2014, 7, 29, 15, 24, 35⟩ (mkRat 108 5) 9010] = true) ∧
    (∀ (raw : List Char) (sym isin : String) (data : List Tick),
      parse_raw raw = some (sym, isin, data) →
      ∃ row0 cell0 row1 dcell,
        (csvRowsOf (univNL raw)).head? = some row0 ∧ row0.head? = some cell0 ∧
        reFindHeader cell0 = some (sym, isin) ∧
        (csvRowsOf (univNL raw))[1]? = some row1 ∧ row1.head? = some dcell ∧
        parseRawRows (trimWS dcell) (((csvRowsOf (univNL raw)).drop 3).dropLast) =
          some data.reverse) ∧
    (∀ (date_str : List Char) (row : List (List Char)) (t : Tick),
      parseRawRow date_str row = some t →
      ∃ tc pc vc rest2, row = tc :: pc :: vc :: rest2 ∧
        parse_datetime ⟨date_str ++ ' ' :: trimWS tc⟩ = some t.time ∧
        pyFloat? ⟨pc⟩ = some t.price ∧ pyInt? ⟨vc⟩ = some t.volume) := by
  refine ⟨⟨?_, by decide⟩, ?_, ?_⟩
  · have h0 : csvRowsOf (univNL ("ABB LTD (ABBN/CH0012221716)\n29.07.2014\nTime;Price;Volume\n15:24:35;21.6;9010\n15:23:03;21.52;5738\n\n".toList)) =
        [["ABB LTD (ABBN/CH0012221716)".toList],
         ["29.07.2014".toList],
         ["Time".toList, "Price".toList, "Volume".toList],
         ["15:24:35".toList, "21.6".toList, "9010".toList],
         ["15:23:03".toList, "21.52".toList, "5738".toList],
         []] := by
      decide
    unfold parse_raw
    rw [h0]
    show (parseRawRows (trimWS ("29.07.2014".toList))
        [["15:24:35".toList, "21.6".toList, "9010".toList],
         ["15:23:03".toList, "21.52".toList, "5738".toList]]).map
      (fun data => (("ABBN" : String), ("CH0012221716" : String), data.reverse)) = some _
    have hdt1 : parse_datetime ⟨trimWS ("29.07.2014".toList) ++
        ' ' :: trimWS ("15:24:35".toList)⟩ = some ⟨2014, 7, 29, 15, 24, 35⟩ := by
      decide
    have hdt2 : parse_datetime ⟨trimWS ("29.07.2014".toList) ++
        ' ' :: trimWS ("15:23:03".toList)⟩ = some ⟨2014, 7, 29, 15, 23, 3⟩ := by
      decide
    have hf1 : pyFloat? ⟨"21.6".toList⟩ = some (mkRat 108 5) := by
      with_unfolding_all decide
    have hf2 : pyFloat? ⟨"21.52".toList⟩ = some (mkRat 538 25) := by
      with_unfolding_all decide
    have hi1 : pyInt? ⟨"9010".toList⟩ = some 9010 := by
      decide
    have hi2 : pyInt? ⟨"5738".toList⟩ = some 5738 := by
      decide
    have hrow1 : parseRawRow (trimWS ("29.07.2014".toList))
        ["15:24:35".toList, "21.6".toList, "9010".toList] =
        some (Tick.mk ⟨2014, 7, 29, 15, 24, 35⟩ (mkRat 108 5) 9010) := by
      show (match parse_datetime ⟨trimWS ("29.07.2014".toList) ++
          ' ' :: trimWS ("15:24:35".toList)⟩,
          pyFloat? ⟨"21.6".toList⟩, pyInt? ⟨"9010".toList⟩ with
        | some dt, some p, some v => some (Tick.mk dt p v)
        | _, _, _ => none) = _
      rw [hdt1, hf1, hi1]
    have hrow2 : parseRawRow (trimWS ("29.07.2014".toList))
        ["15:23:03".toList, "21.52".toList, "5738".toList] =
        some (Tick.mk ⟨2014, 7, 29, 15, 23, 3⟩ (mkRat 538 25) 5738) := by
      show (match parse_datetime ⟨trimWS ("29.07.2014".toList) ++
          ' ' :: trimWS ("15:23:03".toList)⟩,
          pyFloat? ⟨"21.52".toList⟩, pyInt? ⟨"5738".toList⟩ with
        | some dt, some p, some v => some (Tick.mk dt p v)
        | _, _, _ => none) = _
      rw [hdt2, hf2, hi2]
    rw [parseRawRows_cons, hrow1, parseRawRows_cons, hrow2]
    rfl
  · intro raw sym isin data h
    unfold parse_raw at h
    split at h
    · exact absurd h (by simp)
    rename_i row0 h0
    split at h
    · exact absurd h (by simp)
    rename_i cell0 h1
    split at h
    · exact absurd h (by simp)
    rename_i sym0 isin0 h2
    split at h
    · exact absurd h (by simp)
    rename_i row1 h3
    split at h
    · exact absurd h (by simp)
    rename_i dcell h4
    cases h5 : parseRawRows (trimWS dcell)
        (((csvRowsOf (univNL raw)).drop 3).dropLast) with
    | none => rw [h5, Option.map_none'] at h; exact absurd h (by simp)
    | some d =>
                rw [h5, Option.map_some'] at h
                injection h with h
                have hsym : sym0 = sym := congrArg (fun x => x.1) h
                have hisin : isin0 = isin :=
                  congrArg (fun x => x.2.1) h
                have hdata : d.reverse = data :=
                  congrArg (fun x => x.2.2) h
                refine ⟨row0, cell0, row1, dcell, h0, h1, ?_, h3, h4, ?_⟩
                · rw [← hsym, ← hisin]
                  exact h2
                · rw [← hdata, List.reverse_reverse]
                  exact h5
  · intro date_str row t h
    unfold parseRawRow at h
    cases row with
    | nil => exact absurd h (by simp)
    | cons tc r1 =>
      cases r1 with
      | nil => exact absurd h (by simp)
      | cons pc r2 =>
        cases r2 with
        | nil => exact absurd h (by simp)
        | cons vc rest2 =>
          have hm : (match parse_datetime ⟨date_str ++ ' ' :: trimWS tc⟩, pyFloat? ⟨pc⟩,
              pyInt? ⟨vc⟩ with
            | some dt, some p, some v => some (Tick.mk dt p v)
            | _, _, _ => none) = some t := h
          cases hdt : parse_datetime ⟨date_str ++ ' ' :: trimWS tc⟩ with
          | none => rw [hdt] at hm; exact absurd hm (by simp)
          | some dt =>
            rw [hdt] at hm
            cases hp : pyFloat? ⟨pc⟩ with
            | none => rw [hp] at hm; exact absurd hm (by simp)
            | some p =>
              rw [hp] at hm
              cases hvv : pyInt? ⟨vc⟩ with
              | none => rw [hvv] at hm; exact absurd hm (by simp)
              | some v =>
                rw [hvv] at hm
                injection hm with h
                refine ⟨tc, pc, vc, rest2, rfl, ?_, ?_, ?_⟩
                · rw [← h]
                  exact hdt
                · rw [← h]
                  exact hp
                · rw [← h]
                  exact hvv

set_option maxRecDepth 2000 in
/-- C4 counterexample: a two-line export whose first line holds the
header pattern parses successfully with an empty record list, so
having fewer than 4 lines is not a failure condition. -/
theorem C4_counterexample :
    parse_raw ("X (AB/CD)\n29.07.2014\n".toList) = some ("AB", "CD", []) ∧
    (csvRowsOf (univNL ("X (AB/CD)\n29.07.2014\n".toList))).length = 2 := by
  constructor
  · decide
  · decide

/-- C4 amended: the raw parser fails exactly when the header pattern is
missing from the first cell (or there is no first cell), the second
row is missing or empty, or some kept data row (rows 3..n-1) fails to
parse; the line count on its own is not checked. -/
theorem C4_failure_iff (raw : List Char) :
    parse_raw raw = none ↔
      (((csvRowsOf (univNL raw)).head?.bind List.head?).bind reFindHeader = none ∨
       ((csvRowsOf (univNL raw))[1]?).bind List.head? = none ∨
       ∃ dcell, ((csvRowsOf (univNL raw))[1]?).bind List.head? = some dcell ∧
         parseRawRows (trimWS dcell) (((csvRowsOf (univNL raw)).drop 3).dropLast) = none) := by
  constructor
  · intro h
    unfold parse_raw at h
    split at h
    · rename_i h0
      left
      rw [h0]
      rfl
    rename_i row0 h0
    split at h
    · rename_i h1
      left
      rw [h0]
      show (row0.head?).bind reFindHeader = none
      rw [h1]
      rfl
    rename_i cell0 h1
    split at h
    · rename_i h2
      left
      rw [h0]
      show (row0.head?).bind reFindHeader = none
      rw [h1]
      show reFindHeader cell0 = none
      exact h2
    rename_i sym0 isin0 h2
    split at h
    · rename_i h3
      right
      left
      rw [h3]
      rfl
    rename_i row1 h3
    split at h
    · rename_i h4
      right
      left
      rw [h3]
      show row1.head? = none
      exact h4
    rename_i dcell h4
    right
    right
    refine ⟨dcell, ?_, ?_⟩
    · rw [h3]
      show row1.head? = some dcell
      exact h4
    · cases h5 : parseRawRows (trimWS dcell)
          (((csvRowsOf (univNL raw)).drop 3).dropLast) with
      | none => rfl
      | some d =>
        rw [h5, Option.map_some'] at h
        exact absurd h (by simp)
  · intro hr
    unfold parse_raw
    split
    · rfl
    rename_i row0 h0
    split
    · rfl
    rename_i cell0 h1
    split
    · rfl
    rename_i sym0 isin0 h2
    split
    · rfl
    rename_i row1 h3
    split
    · rfl
    rename_i dcell h4
    rcases hr with hc | hc | ⟨dc, hdc, hrows⟩
    · rw [h0] at hc
      rw [show ((some row0).bind List.head? : Option (List Char)) = row0.head? from rfl,
        h1] at hc
      rw [show ((some cell0 : Option (List Char)).bind reFindHeader) =
        reFindHeader cell0 from rfl, h2] at hc
      exact absurd hc (by simp)
    · rw [h3] at hc
      rw [show ((some row1).bind List.head? : Option (List Char)) = row1.head? from rfl,
        h4] at hc
      exact absurd hc (by simp)
    · rw [h3] at hdc
      rw [show ((some row1).bind List.head? : Option (List Char)) = row1.head? from rfl,
        h4] at hdc
      injection hdc with hdc
      rw [hdc, hrows]
      rfl

/-- C4 witness: the failure characterization applied to the empty
input. -/
theorem C4_witness : parse_raw ([] : List Char) = none :=
  (C4_failure_iff []).mpr (Or.inl rfl)

theorem C5_witness :
    ∃ row0 cell0 row1 dcell,
      (csvRowsOf (univNL ("ABB LTD (ABBN/CH0012221716)\n29.07.2014\nTime;Price;Volume\n15:24:35;21.6;9010\n15:23:03;21.52;5738\n\n".toList))).head? = some row0 ∧
      row0.head? = some cell0 ∧
      reFindHeader cell0 = some ("ABBN", "CH0012221716") ∧
      (csvRowsOf (univNL ("ABB LTD (ABBN/CH0012221716)\n29.07.2014\nTime;Price;Volume\n15:24:35;21.6;9010\n15:23:03;21.52;5738\n\n".toList)))[1]? = some row1 ∧
      row1.head? = some dcell ∧
      parseRawRows (trimWS dcell)
        (((csvRowsOf (univNL ("ABB LTD (ABBN/CH0012221716)\n29.07.2014\nTime;Price;Volume\n15:24:35;21.6;9010\n15:23:03;21.52;5738\n\n".toList))).drop 3).dropLast) =
        some ([Tick.mk ⟨2014, 7, 29, 15, 23, 3⟩ (mkRat 538 25) 5738,
          Tick.mk ⟨2014, 7, 29, 15, 24, 35⟩ (mkRat 108 5) 9010] : List Tick).reverse :=
  C5_raw_parse.2.1 _ "ABBN" "CH0012221716"
    [Tick.mk ⟨2014, 7, 29, 15, 23, 3⟩ (mkRat 538 25) 5738,
     Tick.mk ⟨2014, 7, 29, 15, 24, 35⟩ (mkRat 108 5) 9010] C5_raw_parse.1.1

/-- C6 counterexample: a record timestamped exactly at EPOCH is dropped
by a fresh write in both formats, so write-then-read of a series
holding such a record does not return the original records. -/
theorem C6_counterexample :
    save_data_json .strict none (MarketData.mk (some "A") (some "B") [Tick.mk EPOCH 1 1]) =
      .written (JsonDoc.mk (some "A") (some "B") []) ∧
    read_json (JsonDoc.mk (some "A") (some "B") []) =
      some (MarketData.mk (some "A") (some "B") []) ∧
    save_data_csv .strict none (MarketData.mk (some "A") (some "B") [Tick.mk EPOCH 1 1]) =
      .written [] ∧
    read_csv ([] : List Char) = some (MarketData.mk none none []) := by
  refine ⟨rfl, rfl, rfl, rfl⟩

/-- C6 amended: write-then-read of a fresh destination returns exactly
the original records provided every record has a valid timestamp
strictly after EPOCH and an exactly representable decimal price; the
json reader restores symbol and isin while the csv reader leaves them
unresolved. -/
theorem C6_roundtrip (md : MarketData)
    (hv : ∀ t ∈ md.data, validDT t.time = true ∧ EPOCH.lt t.time = true ∧
      isDecQ t.price = true) :
    (∀ doc, save_data_json .strict none md = .written doc →
      read_json doc = some (MarketData.mk md.symbol md.isin md.data)) ∧
    (∀ out, save_data_csv .strict none md = .written out →
      read_csv out = some (MarketData.mk none none md.data)) := by
  have hfilter : md.data.filter (fun t => EPOCH.lt t.time) = md.data :=
    List.filter_eq_self.mpr (fun t ht => (hv t ht).2.1)
  constructor
  · intro doc h
    have hw : save_data_json .strict none md = .written (write_json md EPOCH []) := rfl
    rw [hw] at h
    injection h with h
    rw [← h]
    have hdoc : write_json md EPOCH [] =
        JsonDoc.mk md.symbol md.isin (jsonOfTicks md.data) := by
      unfold write_json
      rw [encoded_rows_eq, hfilter, List.nil_append]
      rfl
    rw [hdoc]
    exact read_json_ticks md.symbol md.isin md.data (fun t ht => (hv t ht).1)
  · intro out h
    have hw : save_data_csv .strict none md = .written (write_csv md EPOCH) := rfl
    rw [hw] at h
    injection h with h
    rw [← h]
    have hout : write_csv md EPOCH = csvOfTicks md.data := by
      unfold write_csv
      rw [encoded_rows_eq, hfilter]
      rfl
    rw [hout]
    exact read_csv_ticks md.data (fun t ht => ⟨(hv t ht).1, (hv t ht).2.2⟩)

/-- C6 witness: the json round-trip at a concrete one-record series. -/
theorem C6_witness :
    read_json (JsonDoc.mk (some "S") none
        (jsonOfTicks [Tick.mk ⟨2014, 7, 29, 15, 23, 3⟩ (mkRat 538 25) 5738])) =
      some (MarketData.mk (some "S") none
        [Tick.mk ⟨2014, 7, 29, 15, 23, 3⟩ (mkRat 538 25) 5738]) :=
  (C6_roundtrip (MarketData.mk (some "S") none
      [Tick.mk ⟨2014, 7, 29, 15, 23, 3⟩ (mkRat 538 25) 5738])
    (by with_unfolding_all decide)).1
    (JsonDoc.mk (some "S") none
      (jsonOfTicks [Tick.mk ⟨2014, 7, 29, 15, 23, 3⟩ (mkRat 538 25) 5738])) rfl

/-- Normal form of save_data_to_db: the new collection always equals
the old plus the filtered rows, and insert is invoked exactly when the
filtered rows are nonempty. -/
theorem save_data_to_db_eq (md : MarketData) (db : List DbRow) :
    save_data_to_db md db =
      (db ++ (md.data.filter (fun t =>
          ((dbMaxTime db md.symbol).getD EPOCH).lt t.time)).map
        (fun t => DbRow.mk md.symbol md.isin t.time t.price t.volume),
       !((md.data.filter (fun t =>
          ((dbMaxTime db md.symbol).getD EPOCH).lt t.time)).map
        (fun t => DbRow.mk md.symbol md.isin t.time t.price t.volume)).isEmpty) := by
  simp only [save_data_to_db]
  split
  · rename_i h
    rw [List.isEmpty_iff.mp h, List.append_nil]
    rfl
  · rename_i h
    rw [Bool.not_eq_true] at h
    rw [h]
    rfl

/-- C1: append-mode merges filter strictly by the destination's
watermark: when the stored maximum for the symbol is T, the store
keeps exactly the incoming rows with time strictly greater than T, in
order, and skips the insert when every incoming record is at or below
T (a record timestamped exactly T is excluded by the strict
comparison); an append to a json or csv destination whose peeked
watermark is T appends exactly the records with time strictly after T,
and appends no records when every incoming record is at or below T. -/
theorem C1_watermark :
    (∀ (md : MarketData) (db : List DbRow) (T : DateTime),
      dbMaxTime db md.symbol = some T →
      (save_data_to_db md db).1 =
        db ++ ((md.data.filter (fun t => T.lt t.time)).map
          (fun t => DbRow.mk md.symbol md.isin t.time t.price t.volume)) ∧
      ((∀ t ∈ md.data, t.time.le T = true) → save_data_to_db md db = (db, false))) ∧
    (∀ (md : MarketData) (old : JsonDoc) (T : DateTime) (old_ticks : List (List PyVal)),
      peek_json old = some (T, old_ticks) →
      save_data_json .append (some old) md =
        .written (JsonDoc.mk md.symbol md.isin
          (old_ticks ++ jsonOfTicks (md.data.filter (fun t => T.lt t.time)))) ∧
      ((∀ t ∈ md.data, t.time.le T = true) →
        save_data_json .append (some old) md =
          .written (JsonDoc.mk md.symbol md.isin old_ticks))) ∧
    (∀ (md : MarketData) (old : List Char) (T : DateTime) (ot : List (List PyVal)),
      peek_csv old = some (T, ot) →
      save_data_csv .append (some old) md =
        .written (old ++ csvOfTicks (md.data.filter (fun t => T.lt t.time))) ∧
      ((∀ t ∈ md.data, t.time.le T = true) →
        save_data_csv .append (some old) md = .written old)) := by
  refine ⟨?_, ?_, ?_⟩
  · intro md db T hT
    have hgetD : (dbMaxTime db md.symbol).getD EPOCH = T := by
      rw [hT]
      rfl
    constructor
    · rw [save_data_to_db_eq, hgetD]
    · intro hle
      have hfil : md.data.filter (fun t => T.lt t.time) = [] :=
        List.filter_eq_nil_iff.mpr (fun t ht => by
          rw [DateTime.not_lt.mpr (hle t ht)]
          simp)
      rw [save_data_to_db_eq, hgetD, hfil]
      simp
  · intro md old T old_ticks hpeek
    have hw : save_data_json .append (some old) md =
        .written (write_json md T old_ticks) := by
      show (match peek_json old with
        | none => SaveResult.exitedBroken
        | some (last_dt, ot2) => SaveResult.written (write_json md last_dt ot2)) =
        SaveResult.written (write_json md T old_ticks)
      rw [hpeek]
    constructor
    · rw [hw]
      show SaveResult.written (JsonDoc.mk md.symbol md.isin
        (old_ticks ++ (encoded_rows md T).map encodeTick)) = _
      rw [encoded_rows_eq]
      rfl
    · intro hle
      have hfil : md.data.filter (fun t => T.lt t.time) = [] :=
        List.filter_eq_nil_iff.mpr (fun t ht => by
          rw [DateTime.not_lt.mpr (hle t ht)]
          simp)
      rw [hw]
      show SaveResult.written (JsonDoc.mk md.symbol md.isin
        (old_ticks ++ (encoded_rows md T).map encodeTick)) = _
      rw [encoded_rows_eq, hfil]
      rw [show ((ticksRows ([] : List Tick)).map encodeTick : List (List PyVal)) = [] from rfl,
        List.append_nil]
  · intro md old T ot hpeek
    have hw : save_data_csv .append (some old) md =
        .written (old ++ write_csv md T) := by
      show (match peek_csv old with
        | none => SaveResult.exitedBroken
        | some (last_dt, ot2) => SaveResult.written (old ++ write_csv md last_dt)) =
        SaveResult.written (old ++ write_csv md T)
      rw [hpeek]
    constructor
    · rw [hw]
      show SaveResult.written (old ++ csvRender (encoded_rows md T)) = _
      rw [encoded_rows_eq]
      rfl
    · intro hle
      have hfil : md.data.filter (fun t => T.lt t.time) = [] :=
        List.filter_eq_nil_iff.mpr (fun t ht => by
          rw [DateTime.not_lt.mpr (hle t ht)]
          simp)
      rw [hw]
      show SaveResult.written (old ++ csvRender (encoded_rows md T)) = _
      rw [encoded_rows_eq, hfil]
      rw [show csvRender (ticksRows []) = ([] : List Char) from rfl, List.append_nil]

/-- C1 witness: a record timestamped exactly at the stored maximum is
not inserted. -/
theorem C1_witness :
    save_data_to_db (MarketData.mk (some "A") none [Tick.mk ⟨2014, 7, 30, 0, 0, 0⟩ 1 1])
      [DbRow.mk (some "A") none ⟨2014, 7, 30, 0, 0, 0⟩ 1 1] =
      ([DbRow.mk (some "A") none ⟨2014, 7, 30, 0, 0, 0⟩ 1 1], false) :=
  (C1_watermark.1 (MarketData.mk (some "A") none [Tick.mk ⟨2014, 7, 30, 0, 0, 0⟩ 1 1])
      [DbRow.mk (some "A") none ⟨2014, 7, 30, 0, 0, 0⟩ 1 1] ⟨2014, 7, 30, 0, 0, 0⟩
      (by decide)).2 (by decide)

/-- A carriage return not followed by a newline translates to a bare
newline. -/
theorem univNL_cr {rest : List Char} (h : rest.head? ≠ some '\n') :
    univNL ('\r' :: rest) = '\n' :: univNL rest := by
  cases rest with
  | nil => rfl
  | cons d r =>
    have hd : d ≠ '\n' := by
      intro hc
      exact h (by rw [hc]; rfl)
    simp [univNL, hd]

/-- Newline translation distributes over append when the right part
does not begin with a newline (so no CRLF pair can straddle the
boundary). -/
theorem univNL_append_right (a b : List Char) (hb : b.head? ≠ some '\n') :
    univNL (a ++ b) = univNL a ++ univNL b := by
  have key : ∀ (n : Nat) (a2 : List Char), a2.length ≤ n →
      univNL (a2 ++ b) = univNL a2 ++ univNL b := by
    intro n
    induction n with
    | zero =>
      intro a2 ha
      rw [List.length_eq_zero.mp (Nat.le_zero.mp ha)]
      rfl
    | succ k ih =>
      intro a2 ha
      cases a2 with
      | nil => rfl
      | cons c r =>
        by_cases hc : c = '\r'
        · subst hc
          cases r with
          | nil =>
            rw [show ('\r' :: ([] : List Char)) ++ b = '\r' :: b from rfl, univNL_cr hb,
              show univNL ['\r'] = ['\n'] from rfl]
            rfl
          | cons d rs =>
            by_cases hd : d = '\n'
            · subst hd
              rw [show ('\r' :: '\n' :: rs) ++ b = '\r' :: '\n' :: (rs ++ b) from rfl,
                univNL_crlf, univNL_crlf,
                ih rs (by simp at ha ⊢; omega), List.cons_append]
            · have hhd : (d :: rs).head? ≠ some '\n' := by
                intro hcc
                injection hcc with hcc
                exact hd hcc
              have hhd2 : ((d :: rs) ++ b).head? ≠ some '\n' := by
                intro hcc
                injection hcc with hcc
                exact hd hcc
              rw [show ('\r' :: d :: rs) ++ b = '\r' :: ((d :: rs) ++ b) from rfl,
                univNL_cr hhd2, univNL_cr hhd,
                ih (d :: rs) (by simp at ha ⊢; omega), List.cons_append]
        · rw [show (c :: r) ++ b = c :: (r ++ b) from rfl, univNL_cons_ne hc,
            univNL_cons_ne hc, ih r (by simp at ha ⊢; omega), List.cons_append]
  exact key a.length a (Nat.le_refl _)

/-- A rendered csv destination never begins with a newline (the first
character is a digit of the day field). -/
theorem csvOfTicks_head_ne (l : List Tick) : (csvOfTicks l).head? ≠ some '\n' := by
  cases l with
  | nil =>
    intro hc
    exact absurd hc (by simp [csvOfTicks, ticksRows, csvRender])
  | cons t rest =>
    intro hc
    have hh : (csvOfTicks (t :: rest)).head? = some (digitChar (t.time.day / 10 % 10)) := rfl
    rw [hh] at hc
    injection hc with hc
    have hdig : (digitChar (t.time.day / 10 % 10)).isDigit = true :=
      (dval_digitChar (t.time.day / 10 % 10) (Nat.mod_lt _ (by omega))).2
    rw [hc] at hdig
    exact absurd hdig (by decide)

/-- peek of a json destination whose ticks are an arbitrary prefix
followed by rendered ticks: the watermark is the last rendered
record's timestamp. -/
theorem peek_json_old (s i : Option String) (old2 : List (List PyVal)) (l : List Tick)
    (tl : Tick) (hlast : l.getLast? = some tl) (hv : validDT tl.time = true) :
    peek_json (JsonDoc.mk s i (old2 ++ jsonOfTicks l)) =
      some (tl.time, old2 ++ jsonOfTicks l) := by
  have hlne : l ≠ [] := by
    intro hc
    rw [hc] at hlast
    exact absurd hlast (by simp)
  have hne : jsonOfTicks l ≠ [] := by
    intro hc
    apply hlne
    have hlen := congrArg List.length hc
    simpa [jsonOfTicks, ticksRows] using hlen
  unfold peek_json
  have hmap : (old2 ++ jsonOfTicks l).getLast? =
      some (encodeTick (str_datetime tl.time, tl.price, tl.volume)) := by
    rw [List.getLast?_append_of_ne_nil old2 hne, jsonOfTicks, List.getLast?_map,
      ticksRows, List.getLast?_map, hlast]
    rfl
  rw [show (JsonDoc.mk s i (old2 ++ jsonOfTicks l)).ticks = old2 ++ jsonOfTicks l from rfl,
    hmap]
  show (parse_datetime (str_datetime tl.time)).map _ = _
  rw [parse_str_datetime tl.time hv]
  rfl

/-- peek of a csv destination made of old bytes whose translation ends
at a line boundary, followed by rendered ticks: the watermark is the
last rendered record's timestamp. -/
theorem peek_csv_old (old : List Char) (l : List Tick) (tl : Tick)
    (hlast : l.getLast? = some tl) (hv : ∀ t ∈ l, validDT t.time = true)
    (hterm : univNL old = [] ∨ (univNL old).getLast? = some '\n') :
    peek_csv (old ++ csvOfTicks l) = some (tl.time, []) := by
  unfold peek_csv
  rw [univNL_append_right old _ (csvOfTicks_head_ne l), univNL_csvOfTicks,
    pyReadLines_append (csvRenderN (ticksRows l)) hterm,
    pyReadLines_csvRenderN _ (ticksRows_no_nl l)]
  have hlne : l ≠ [] := by
    intro hc
    rw [hc] at hlast
    exact absurd hlast (by simp)
  have hBne : (ticksRows l).map (fun r => renderRowBody r ++ ['\n']) ≠ [] := by
    intro hc
    apply hlne
    have hlen := congrArg List.length hc
    simpa [ticksRows] using hlen
  rw [List.getLast?_append_of_ne_nil _ hBne]
  have hmap : ((ticksRows l).map (fun r => renderRowBody r ++ ['\n'])).getLast? =
      some (renderRowBody (str_datetime tl.time, tl.price, tl.volume) ++ ['\n']) := by
    rw [List.getLast?_map, ticksRows, List.getLast?_map, hlast]
    rfl
  rw [hmap]
  show (parse_datetime ⟨(splitOnChar ';'
    (renderRowBody (str_datetime tl.time, tl.price, tl.volume) ++ ['\n'])).headD []⟩).map _ = _
  rw [splitOnChar_line_head, string_eta,
    parse_str_datetime tl.time (hv tl (List.mem_of_mem_getLast? hlast))]
  rfl

/-- A second store merge of the same series is a no-op: the rows
appended by the first merge push the stored maximum to at least every
incoming timestamp. -/
theorem save_db_idem (md : MarketData) (db : List DbRow) :
    save_data_to_db md (save_data_to_db md db).1 = ((save_data_to_db md db).1, false) := by
  have h1 : (save_data_to_db md db).1 =
      db ++ (md.data.filter (fun t =>
      ((dbMaxTime db md.symbol).getD EPOCH).lt t.time)).map
        (fun t => DbRow.mk md.symbol md.isin t.time t.price t.volume) := by
    rw [save_data_to_db_eq]
  rw [h1]
  by_cases hF1 : md.data.filter (fun t =>
      ((dbMaxTime db md.symbol).getD EPOCH).lt t.time) = []
  · rw [hF1, show (([] : List Tick).map
        (fun t => DbRow.mk md.symbol md.isin t.time t.price t.volume) : List DbRow) = [] from rfl,
      List.append_nil, save_data_to_db_eq, hF1]
    simp
  · obtain ⟨t0, ht0⟩ := List.exists_mem_of_ne_nil _ hF1
    have ht0gt : ((dbMaxTime db md.symbol).getD EPOCH).lt t0.time = true :=
      (List.mem_filter.mp ht0).2
    have hr0mem : DbRow.mk md.symbol md.isin t0.time t0.price t0.volume ∈
        db ++ (md.data.filter (fun t =>
      ((dbMaxTime db md.symbol).getD EPOCH).lt t.time)).map
          (fun t => DbRow.mk md.symbol md.isin t.time t.price t.volume) :=
      List.mem_append.mpr (Or.inr (List.mem_map.mpr ⟨t0, ht0, rfl⟩))
    obtain ⟨T2, hT2, ht0le⟩ := dbMaxTime_ge _ hr0mem rfl
    have hall : ∀ t ∈ md.data, t.time.le T2 = true := by
      intro t ht
      by_cases hin : ((dbMaxTime db md.symbol).getD EPOCH).lt t.time = true
      · have hmem : DbRow.mk md.symbol md.isin t.time t.price t.volume ∈
            db ++ (md.data.filter (fun t =>
      ((dbMaxTime db md.symbol).getD EPOCH).lt t.time)).map
              (fun t => DbRow.mk md.symbol md.isin t.time t.price t.volume) :=
          List.mem_append.mpr (Or.inr (List.mem_map.mpr
            ⟨t, List.mem_filter.mpr ⟨ht, hin⟩, rfl⟩))
        obtain ⟨m, hm, hle⟩ := dbMaxTime_ge _ hmem rfl
        rw [hT2] at hm
        injection hm with hm
        rw [hm]
        exact hle
      · have hle1 : t.time.le ((dbMaxTime db md.symbol).getD EPOCH) = true := by
          rw [Bool.not_eq_true] at hin
          exact DateTime.not_lt.mp hin
        cases hdb : dbMaxTime db md.symbol with
        | none =>
          have hE : (dbMaxTime db md.symbol).getD EPOCH = EPOCH := by
            rw [hdb]
            rfl
          rw [hE] at hle1 ht0gt
          exact DateTime.le_trans hle1
            (DateTime.le_trans (DateTime.le_of_lt ht0gt) ht0le)
        | some T1 =>
          have hE : (dbMaxTime db md.symbol).getD EPOCH = T1 := by
            rw [hdb]
            rfl
          rw [hE] at hle1
          obtain ⟨m1, hm1, hle2⟩ := dbMaxTime_mono_append
            ((md.data.filter (fun t =>
      ((dbMaxTime db md.symbol).getD EPOCH).lt t.time)).map
              (fun t => DbRow.mk md.symbol md.isin t.time t.price t.volume)) db T1 hdb
          rw [hT2] at hm1
          injection hm1 with hm1
          rw [← hm1] at hle2
          exact DateTime.le_trans hle1 hle2
    rw [save_data_to_db_eq md (db ++ (md.data.filter (fun t =>
      ((dbMaxTime db md.symbol).getD EPOCH).lt t.time)).map
      (fun t => DbRow.mk md.symbol md.isin t.time t.price t.volume))]
    have hgd : (dbMaxTime (db ++ (md.data.filter (fun t =>
      ((dbMaxTime db md.symbol).getD EPOCH).lt t.time)).map
        (fun t => DbRow.mk md.symbol md.isin t.time t.price t.volume)) md.symbol).getD EPOCH = T2 := by
      rw [hT2]
      rfl
    rw [hgd]
    have hF2 : md.data.filter (fun t => T2.lt t.time) = [] :=
      List.filter_eq_nil_iff.mpr (fun t ht => by
        rw [DateTime.not_lt.mpr (hall t ht)]
        simp)
    rw [hF2]
    simp

theorem getLast?_ne_none {α : Type} : ∀ {l : List α}, l ≠ [] → l.getLast? ≠ none := by
  intro l
  induction l with
  | nil => intro h; exact absurd rfl h
  | cons x xs ih =>
    intro _ hc
    cases xs with
    | nil => exact absurd hc (by simp)
    | cons y ys =>
      rw [List.getLast?_cons_cons] at hc
      exact ih (by simp) hc

/-- A second append-mode json merge of the same series rewrites the
destination unchanged. -/
theorem save_json_idem (md : MarketData) (old : JsonDoc) (T : DateTime)
    (old_ticks : List (List PyVal)) (hpeek : peek_json old = some (T, old_ticks))
    (hsorted : ticksSortedAsc md.data = true)
    (hv : ∀ t ∈ md.data, validDT t.time = true)
    (doc1 : JsonDoc) (h1 : save_data_json .append (some old) md = .written doc1) :
    save_data_json .append (some doc1) md = .written doc1 := by
  have hw : save_data_json .append (some old) md =
      .written (JsonDoc.mk md.symbol md.isin
        (old_ticks ++ jsonOfTicks (md.data.filter (fun t => T.lt t.time)))) := by
    show (match peek_json old with
      | none => SaveResult.exitedBroken
      | some (last_dt, ot2) => SaveResult.written (write_json md last_dt ot2)) = _
    rw [hpeek]
    show SaveResult.written (JsonDoc.mk md.symbol md.isin
      (old_ticks ++ (encoded_rows md T).map encodeTick)) = _
    rw [encoded_rows_eq]
    rfl
  rw [hw] at h1
  injection h1 with h1
  rw [← h1]
  cases hF : md.data.filter (fun t => T.lt t.time) with
  | nil =>
    rw [show jsonOfTicks ([] : List Tick) = ([] : List (List PyVal)) from rfl,
      List.append_nil]
    have hpeek2 : peek_json (JsonDoc.mk md.symbol md.isin old_ticks) =
        some (T, old_ticks) := by
      unfold peek_json at hpeek
      split at hpeek
      · rename_i hlast
        injection hpeek with hpe
        have hT : EPOCH = T := congrArg Prod.fst hpe
        have hot : ([] : List (List PyVal)) = old_ticks := congrArg Prod.snd hpe
        rw [← hT, ← hot]
        rfl
      · rename_i row hlast
        split at hpeek
        · exact absurd hpeek (by simp)
        · rename_i s2 hhead
          cases hpd : parse_datetime s2 with
          | none => rw [hpd] at hpeek; exact absurd hpeek (by simp)
          | some dt =>
            rw [hpd, Option.map_some'] at hpeek
            injection hpeek with hpe
            have hdt : dt = T := congrArg Prod.fst hpe
            have hot : old.ticks = old_ticks := congrArg Prod.snd hpe
            rw [← hot]
            show peek_json old = some (T, old.ticks)
            unfold peek_json
            rw [hlast]
            show (match row.head? with
              | none => none
              | some (.vstr s3) => (parse_datetime s3).map (fun d => (d, old.ticks))
              | some _ => none) = some (T, old.ticks)
            rw [hhead]
            show (parse_datetime s2).map (fun d => (d, old.ticks)) = some (T, old.ticks)
            rw [hpd, Option.map_some', hdt]
        · exact absurd hpeek (by simp)
    have hw2 : save_data_json .append
        (some (JsonDoc.mk md.symbol md.isin old_ticks)) md =
        .written (write_json md T old_ticks) := by
      show (match peek_json (JsonDoc.mk md.symbol md.isin old_ticks) with
        | none => SaveResult.exitedBroken
        | some (last_dt, ot2) => SaveResult.written (write_json md last_dt ot2)) = _
      rw [hpeek2]
    rw [hw2]
    show SaveResult.written (JsonDoc.mk md.symbol md.isin
      (old_ticks ++ (encoded_rows md T).map encodeTick)) = _
    rw [encoded_rows_eq, hF,
      show ((ticksRows ([] : List Tick)).map encodeTick : List (List PyVal)) = [] from rfl,
      List.append_nil]
  | cons f fs =>
    cases hlastF : (f :: fs).getLast? with
    | none => exact absurd hlastF (getLast?_ne_none (by simp))
    | some tl =>
      have htlfil : tl ∈ md.data.filter (fun t => T.lt t.time) := by
        rw [hF]
        exact List.mem_of_mem_getLast? hlastF
      have htlmd : tl ∈ md.data := List.mem_of_mem_filter htlfil
      have htlgt : T.lt tl.time = true := (List.mem_filter.mp htlfil).2
      have hpeek2 : peek_json (JsonDoc.mk md.symbol md.isin
          (old_ticks ++ jsonOfTicks (f :: fs))) =
          some (tl.time, old_ticks ++ jsonOfTicks (f :: fs)) :=
        peek_json_old md.symbol md.isin old_ticks (f :: fs) tl hlastF (hv tl htlmd)
      have hsF : ticksSortedAsc (f :: fs) = true := by
        have hs2 := sortedAsc_filter (fun t => T.lt t.time) hsorted
        rw [hF] at hs2
        exact hs2
      have hall : ∀ t ∈ md.data, t.time.le tl.time = true := by
        intro t ht
        by_cases hlt : T.lt t.time = true
        · exact sortedAsc_all_le_last hsF hlastF t
            (by rw [← hF]; exact List.mem_filter.mpr ⟨ht, hlt⟩)
        · rw [Bool.not_eq_true] at hlt
          exact DateTime.le_trans (DateTime.not_lt.mp hlt) (DateTime.le_of_lt htlgt)
      have hF2 : md.data.filter (fun t => tl.time.lt t.time) = [] :=
        List.filter_eq_nil_iff.mpr (fun t ht => by
          rw [DateTime.not_lt.mpr (hall t ht)]
          simp)
      have hw2 : save_data_json .append (some (JsonDoc.mk md.symbol md.isin
          (old_ticks ++ jsonOfTicks (f :: fs)))) md =
          .written (write_json md tl.time (old_ticks ++ jsonOfTicks (f :: fs))) := by
        show (match peek_json (JsonDoc.mk md.symbol md.isin
            (old_ticks ++ jsonOfTicks (f :: fs))) with
          | none => SaveResult.exitedBroken
          | some (last_dt, ot2) => SaveResult.written (write_json md last_dt ot2)) = _
        rw [hpeek2]
      rw [hw2]
      show SaveResult.written (JsonDoc.mk md.symbol md.isin
        ((old_ticks ++ jsonOfTicks (f :: fs)) ++ (encoded_rows md tl.time).map encodeTick)) = _
      rw [encoded_rows_eq, hF2,
        show ((ticksRows ([] : List Tick)).map encodeTick : List (List PyVal)) = [] from rfl,
        List.append_nil]

/-- A second append-mode csv merge of the same series appends nothing. -/
theorem save_csv_idem (md : MarketData) (old : List Char) (T : DateTime)
    (ot : List (List PyVal)) (hpeek : peek_csv old = some (T, ot))
    (hterm : univNL old = [] ∨ (univNL old).getLast? = some '\n')
    (hsorted : ticksSortedAsc md.data = true)
    (hv : ∀ t ∈ md.data, validDT t.time = true)
    (out : List Char) (h1 : save_data_csv .append (some old) md = .written out) :
    save_data_csv .append (some out) md = .written out := by
  have hw : save_data_csv .append (some old) md =
      .written (old ++ csvOfTicks (md.data.filter (fun t => T.lt t.time))) := by
    show (match peek_csv old with
      | none => SaveResult.exitedBroken
      | some (last_dt, ot2) => SaveResult.written (old ++ write_csv md last_dt)) = _
    rw [hpeek]
    show SaveResult.written (old ++ csvRender (encoded_rows md T)) = _
    rw [encoded_rows_eq]
    rfl
  rw [hw] at h1
  injection h1 with h1
  rw [← h1]
  cases hF : md.data.filter (fun t => T.lt t.time) with
  | nil =>
    rw [show csvOfTicks ([] : List Tick) = ([] : List Char) from rfl, List.append_nil]
    rw [hw, hF, show csvOfTicks ([] : List Tick) = ([] : List Char) from rfl,
      List.append_nil]
  | cons f fs =>
    cases hlastF : (f :: fs).getLast? with
    | none => exact absurd hlastF (getLast?_ne_none (by simp))
    | some tl =>
      have htlfil : tl ∈ md.data.filter (fun t => T.lt t.time) := by
        rw [hF]
        exact List.mem_of_mem_getLast? hlastF
      have htlgt : T.lt tl.time = true := (List.mem_filter.mp htlfil).2
      have hvF : ∀ t ∈ f :: fs, validDT t.time = true := by
        intro t htf
        have htfil : t ∈ md.data.filter (fun t2 => T.lt t2.time) := by
          rw [hF]
          exact htf
        exact hv t (List.mem_of_mem_filter htfil)
      have hpeek2 : peek_csv (old ++ csvOfTicks (f :: fs)) = some (tl.time, []) :=
        peek_csv_old old (f :: fs) tl hlastF hvF hterm
      have hsF : ticksSortedAsc (f :: fs) = true := by
        have hs2 := sortedAsc_filter (fun t => T.lt t.time) hsorted
        rw [hF] at hs2
        exact hs2
      have hall : ∀ t ∈ md.data, t.time.le tl.time = true := by
        intro t ht
        by_cases hlt : T.lt t.time = true
        · exact sortedAsc_all_le_last hsF hlastF t
            (by rw [← hF]; exact List.mem_filter.mpr ⟨ht, hlt⟩)
        · rw [Bool.not_eq_true] at hlt
          exact DateTime.le_trans (DateTime.not_lt.mp hlt) (DateTime.le_of_lt htlgt)
      have hF2 : md.data.filter (fun t => tl.time.lt t.time) = [] :=
        List.filter_eq_nil_iff.mpr (fun t ht => by
          rw [DateTime.not_lt.mpr (hall t ht)]
          simp)
      have hw2 : save_data_csv .append (some (old ++ csvOfTicks (f :: fs))) md =
          .written ((old ++ csvOfTicks (f :: fs)) ++ write_csv md tl.time) := by
        show (match peek_csv (old ++ csvOfTicks (f :: fs)) with
          | none => SaveResult.exitedBroken
          | some (last_dt, ot2) =>
            SaveResult.written ((old ++ csvOfTicks (f :: fs)) ++ write_csv md last_dt)) = _
        rw [hpeek2]
      rw [hw2]
      show SaveResult.written ((old ++ csvOfTicks (f :: fs)) ++
        csvRender (encoded_rows md tl.time)) = _
      rw [encoded_rows_eq, hF2,
        show csvRender (ticksRows ([] : List Tick)) = ([] : List Char) from rfl,
        List.append_nil]

/-- C2: merging the same series twice: a second store merge is always
a no-op (the insert is skipped and the collection is unchanged); and
for a sorted series with valid timestamps, a second append-mode file
merge into the destination produced by the first merge rewrites it
unchanged, for json and (when the old bytes end at a line boundary)
for csv. -/
theorem C2_idempotent :
    (∀ (md : MarketData) (db : List DbRow),
      save_data_to_db md (save_data_to_db md db).1 = ((save_data_to_db md db).1, false)) ∧
    (∀ (md : MarketData) (old : JsonDoc) (T : DateTime) (old_ticks : List (List PyVal))
      (doc1 : JsonDoc),
      peek_json old = some (T, old_ticks) →
      ticksSortedAsc md.data = true →
      (∀ t ∈ md.data, validDT t.time = true) →
      save_data_json .append (some old) md = .written doc1 →
      save_data_json .append (some doc1) md = .written doc1) ∧
    (∀ (md : MarketData) (old : List Char) (T : DateTime) (ot : List (List PyVal))
      (out : List Char),
      peek_csv old = some (T, ot) →
      (univNL old = [] ∨ (univNL old).getLast? = some '\n') →
      ticksSortedAsc md.data = true →
      (∀ t ∈ md.data, validDT t.time = true) →
      save_data_csv .append (some old) md = .written out →
      save_data_csv .append (some out) md = .written out) :=
  ⟨save_db_idem,
   fun md old T old_ticks doc1 hpeek hsorted hv h1 =>
     save_json_idem md old T old_ticks hpeek hsorted hv doc1 h1,
   fun md old T ot out hpeek hterm hsorted hv h1 =>
     save_csv_idem md old T ot hpeek hterm hsorted hv out h1⟩

/-- C2 witness: a second json append of a one-record series onto the
document the first merge produced returns that document unchanged. -/
theorem C2_witness :
    save_data_json .append
      (some (JsonDoc.mk (some "S") none
        (jsonOfTicks [Tick.mk ⟨2014, 7, 30, 1, 0, 0⟩ (mkRat 1 2) 2])))
      (MarketData.mk (some "S") none [Tick.mk ⟨2014, 7, 30, 1, 0, 0⟩ (mkRat 1 2) 2]) =
      .written (JsonDoc.mk (some "S") none
        (jsonOfTicks [Tick.mk ⟨2014, 7, 30, 1, 0, 0⟩ (mkRat 1 2) 2])) :=
  C2_idempotent.2.1 (MarketData.mk (some "S") none
      [Tick.mk ⟨2014, 7, 30, 1, 0, 0⟩ (mkRat 1 2) 2])
    (JsonDoc.mk none none []) EPOCH []
    (JsonDoc.mk (some "S") none
      (jsonOfTicks [Tick.mk ⟨2014, 7, 30, 1, 0, 0⟩ (mkRat 1 2) 2]))
    rfl (by decide) (by decide) rfl

end SixScraper
